import Mathlib

/-! # Pairwise collision detection (`2DChemistry/lib/distCheck.c`)

A shallow embedding of the two C functions `check_distance` and
`detect_collisions`, and theorems about them.

* The scalar type of the particle data is a parameter `α` carrying `+`, `-`,
  `*` and a decidable `<`.  Everything that is proved about the loops of
  `detect_collisions` holds for every such type.  The C type `float` is the
  instance `F32` below: IEEE-754 binary32 with round-to-nearest-even, the
  arithmetic of the WebAssembly target the file is compiled for.
* C `int` values (`n`, `i`, `j`, `k`, the contents of `nPairs` and `pairs`) are
  mathematical integers.  In the C code no `int` operation overflows unless
  `n` is `INT_MIN` or `2^30` pairs collide, which takes a `pairs` buffer of
  `2^31` integers.
* The five arrays are separate lists.  A read or write outside a list is
  undefined behaviour in C and makes the embedded function return `none`.
-/

namespace DistCheck

/-! ## The C type `float` -/

/-- IEEE-754 binary32 values.  Every finite binary32 number is an integer
multiple of `2^(-149)`: `fin k` is the number `k * 2^(-149)`.  The sign of a
zero is not recorded: `+`, `-`, `*` and `<` never tell the two zeros apart. -/
inductive F32 where
  | nan : F32
  | inf (neg : Bool) : F32
  | fin (k : Int) : F32
  deriving DecidableEq, Repr

namespace F32

/-- The number of binary digits of `a` (`0` for `a = 0`); the first argument
bounds the recursion and `a` itself is always enough. -/
def bitLenAux : Nat → Nat → Nat
  | 0, _ => 0
  | fuel + 1, a => if a = 0 then 0 else bitLenAux fuel (a / 2) + 1

/-- The number of binary digits of `a`. -/
def bitLen (a : Nat) : Nat := bitLenAux a a

/-- Round-to-nearest, ties-to-even, of the magnitude `a * 2^(-(149+t))` to a
binary32 significand: the result is in units of `2^(-149)`.  `sh` low bits of
`a` are dropped: at least `t` (the binary32 quantum is `2^(-149)`) and enough
to keep at most 24 significant bits; `q` is what is kept, `rem` what is
dropped, and `q` is incremented when `rem` is more than half a unit of `q`,
or exactly half and `q` is odd. -/
def roundNat (a t : Nat) : Nat :=
  let sh := max t (bitLen a - 24)
  let q := a >>> sh
  let rem := a - (q <<< sh)
  let up : Bool :=
    decide (1 <<< sh < 2 * rem) || (decide (2 * rem = 1 <<< sh) && decide (q % 2 = 1))
  (if up then q + 1 else q) <<< (sh - t)

/-- The binary32 result of an operation whose exact result is
`z * 2^(-(149+t))`: rounded to nearest even, and infinite when the rounded
magnitude reaches `2^128 = 2^277 * 2^(-149)`. -/
def rnd (z : Int) (t : Nat) : F32 :=
  let m := roundNat z.natAbs t
  if 2 ^ 128 * 2 ^ 149 ≤ m then inf (decide (z < 0))
  else fin (if z < 0 then -(m : Int) else (m : Int))

/-- Binary32 addition. -/
def add : F32 → F32 → F32
  | nan, _ => nan
  | _, nan => nan
  | inf a, inf b => if a = b then inf a else nan
  | inf a, fin _ => inf a
  | fin _, inf b => inf b
  | fin a, fin b => rnd (a + b) 0

/-- Binary32 subtraction. -/
def sub : F32 → F32 → F32
  | nan, _ => nan
  | _, nan => nan
  | inf a, inf b => if a = b then nan else inf a
  | inf a, fin _ => inf a
  | fin _, inf b => inf (!b)
  | fin a, fin b => rnd (a - b) 0

/-- Binary32 multiplication. -/
def mul : F32 → F32 → F32
  | nan, _ => nan
  | _, nan => nan
  | inf a, inf b => inf (a != b)
  | inf a, fin k => if k = 0 then nan else inf (a != decide (k < 0))
  | fin k, inf b => if k = 0 then nan else inf (decide (k < 0) != b)
  | fin a, fin b => rnd (a * b) 149

/-- Binary32 negation (not used by the C code; `a - b` is the negation of `b - a`). -/
def neg : F32 → F32
  | nan => nan
  | inf a => inf (!a)
  | fin k => fin (-k)

/-- Binary32 `<`: false as soon as one side is a NaN. -/
def lt : F32 → F32 → Bool
  | nan, _ => false
  | _, nan => false
  | inf a, inf b => a && !b
  | inf a, fin _ => a
  | fin _, inf b => !b
  | fin a, fin b => decide (a < b)

instance : Add F32 := ⟨add⟩
instance : Sub F32 := ⟨sub⟩
instance : Mul F32 := ⟨mul⟩
instance : LT F32 := ⟨fun a b => lt a b = true⟩
instance : DecidableRel (fun a b : F32 => a < b) := fun a b =>
  inferInstanceAs (Decidable (lt a b = true))

/-- The value with the IEEE-754 binary32 encoding `b` (sign bit, 8 exponent
bits, 23 fraction bits), e.g. `ofBits 0x3F800000` is `1.0f`. -/
def ofBits (b : Nat) : F32 :=
  let s := b / 2 ^ 31 % 2
  let e := b / 2 ^ 23 % 256
  let f := b % 2 ^ 23
  if e = 255 then (if f = 0 then inf (decide (s = 1)) else nan)
  else
    let m : Nat := if e = 0 then f else (2 ^ 23 + f) <<< (e - 1)
    fin (if s = 1 then -(m : Int) else (m : Int))

/-- Whether `a` is not below zero: NaN, `+inf`, or a finite value that is not negative. -/
def notNegative : F32 → Bool
  | nan => true
  | inf a => !a
  | fin k => decide (0 ≤ k)

/-- The number a finite binary32 value stands for; `none` for NaN and the infinities. -/
def val : F32 → Option ℚ
  | fin k => some ((k : ℚ) / 2 ^ 149)
  | _ => none

end F32

/-! ## `check_distance` -/

section Scalar

variable {α : Type} [Add α] [Sub α] [Mul α] [LT α] [DecidableRel (fun a b : α => a < b)]

/-- `int check_distance(float x1, float y1, float r1, float x2, float y2, float r2)`. -/
def check_distance (x1 y1 r1 x2 y2 r2 : α) : Int :=
  let dx := x2 - x1
  let dy := y2 - y1
  let r := r2 + r1
  if dx * dx + dy * dy < r * r then 1 else 0

/-! ## Memory and loops -/

/-- The five arrays `detect_collisions` is handed, as separate lists. -/
structure Mem (α : Type) where
  x : List α
  y : List α
  r : List α
  nPairs : List Int
  pairs : List Int

/-- A point of the run: the memory, the local `k`, and two counters that are
not in the C code and only record what has happened so far: the number of
calls of `check_distance` and the number of stores into `pairs`. -/
structure State (α : Type) where
  mem : Mem α
  k : Int
  calls : Nat
  stores : Nat

/-- The read `a[i]`; `none` outside the array. -/
def load {β : Type} (a : List β) (i : Int) : Option β :=
  if 0 ≤ i then a[i.toNat]? else none

/-- The write `a[i] = v`; `none` outside the array. -/
def store {β : Type} (a : List β) (i : Int) (v : β) : Option (List β) :=
  if 0 ≤ i ∧ i.toNat < a.length then some (a.set i.toNat v) else none

/-- The loop `for (int v = lo; v < hi; v++) body`, started at `v` with `fuel`
iterations allowed; running out of `fuel` before `v < hi` fails is `none`. -/
def forLoop {σ : Type} (hi : Int) (body : Int → σ → Option σ) : Nat → Int → σ → Option σ
  | 0, v, s => if v < hi then none else some s
  | fuel + 1, v, s => if v < hi then (body v s).bind (forLoop hi body fuel (v + 1)) else some s

/-- The body of the inner loop of `detect_collisions`, for one `i` and `j`. -/
def pairStep (i j : Int) (s : State α) : Option (State α) := do
  let xi ← load s.mem.x i
  let yi ← load s.mem.y i
  let ri ← load s.mem.r i
  let xj ← load s.mem.x j
  let yj ← load s.mem.y j
  let rj ← load s.mem.r j
  if check_distance xi yi ri xj yj rj ≠ 0 then do
    let c ← load s.mem.nPairs 0
    let np ← store s.mem.nPairs 0 (c + 1)
    let p ← store s.mem.pairs s.k i
    let p ← store p (s.k + 1) j
    pure { mem := { s.mem with nPairs := np, pairs := p }, k := s.k + 2,
           calls := s.calls + 1, stores := s.stores + 2 }
  else
    pure { s with calls := s.calls + 1 }

/-- `void detect_collisions(int n, float* x, float* y, float* r, int* nPairs, int* pairs)`:
the state at the return, or `none` when the run leaves one of the arrays.  Each
loop is given as many iterations as its bounds allow. -/
def detect_collisions (n : Int) (m : Mem α) : Option (State α) := do
  let np ← store m.nPairs 0 0
  let s : State α := { mem := { m with nPairs := np }, k := 0, calls := 0, stores := 0 }
  forLoop (n - 1)
    (fun i s => forLoop n (fun j s => pairStep i j s) (n - (i + 1)).toNat (i + 1) s)
    (n - 1 - 0).toNat 0 s

/-! ## What the caller reads back, and the words of the specification -/

/-- The first `cnt` pairs of the buffer `buf`: the `m`-th one is
`(buf[2m], buf[2m+1])`; `none` when the buffer is too short. -/
def readPairs (buf : List Int) : Nat → Option (List (Int × Int))
  | 0 => some []
  | cnt + 1 => do
    let ps ← readPairs buf cnt
    let a ← buf[2 * cnt]?
    let b ← buf[2 * cnt + 1]?
    pure (ps ++ [(a, b)])

/-- The sequence of pairs a finished run hands to the caller: the first
`nPairs[0]` pairs of `pairs`. -/
def emitted (s : State α) : Option (List (Int × Int)) := do
  let c ← load s.mem.nPairs 0
  if 0 ≤ c then readPairs s.mem.pairs c.toNat else none

/-- The integers `lo, lo+1, ...`, `cnt` of them. -/
def intRange (lo : Int) : Nat → List Int
  | 0 => []
  | cnt + 1 => lo :: intRange (lo + 1) cnt

/-- The upper-triangular enumeration `(0,1), (0,2), ..., (0,n-1), (1,2), ...,
(n-2,n-1)`: `i` from `0` to `n-2` and, for each `i`, `j` from `i+1` to `n-1`. -/
def upperTriangle (n : Int) : List (Int × Int) :=
  (intRange 0 (n - 1).toNat).flatMap fun i =>
    (intRange (i + 1) (n - (i + 1)).toNat).map fun j => (i, j)

/-- Whether `check_distance` is true on particles `p.1` and `p.2` of `m`
(`false` when one of them is outside the arrays). -/
def overlaps (m : Mem α) (p : Int × Int) : Bool :=
  match load m.x p.1, load m.y p.1, load m.r p.1, load m.x p.2, load m.y p.2, load m.r p.2 with
  | some xi, some yi, some ri, some xj, some yj, some rj =>
    decide (check_distance xi yi ri xj yj rj ≠ 0)
  | _, _, _, _, _, _ => false

/-- The colliding pairs of `m` among the first `n` particles, in iteration order. -/
def collisions (n : Int) (m : Mem α) : List (Int × Int) :=
  (upperTriangle n).filter (overlaps m)

/-- The caller's side of the contract: `x`, `y` and `r` hold at least `n`
values, `nPairs` has a slot, and `pairs` has room for the pairs that collide. -/
def WellFormed (n : Int) (m : Mem α) : Prop :=
  n ≤ m.x.length ∧ n ≤ m.y.length ∧ n ≤ m.r.length ∧ 1 ≤ m.nPairs.length ∧
    2 * (collisions n m).length ≤ m.pairs.length

/-- The order of the output: `p` comes before `q` when `p.1 < q.1`, or
`p.1 = q.1` and `p.2 < q.2`. -/
def lexLt (p q : Int × Int) : Prop :=
  p.1 < q.1 ∨ (p.1 = q.1 ∧ p.2 < q.2)

/-- The layout of a sequence of pairs in `pairs`: `i` then `j`, pair after pair. -/
def flatPairs (ps : List (Int × Int)) : List Int :=
  ps.flatMap fun p => [p.1, p.2]

/-- The state of a run on the memory `m` once the pairs `done` have been
written and `check_distance` has been called `calls` times. -/
def stateAfter (m : Mem α) (done : List (Int × Int)) (calls : Nat) : State α :=
  { mem := { m with nPairs := m.nPairs.set 0 (done.length : Int),
                    pairs := flatPairs done ++ m.pairs.drop (2 * done.length) },
    k := 2 * (done.length : Int), calls := calls, stores := 2 * done.length }

/-- What a call has no business changing: the arrays `x`, `y` and `r`, the
cells of `nPairs` behind `nPairs[0]`, and the sizes of the two output arrays. -/
def frameOf (m : Mem α) : List α × List α × List α × List Int × Nat × Nat :=
  (m.x, m.y, m.r, m.nPairs.drop 1, m.nPairs.length, m.pairs.length)

/-- The index `v` is inside each of the arrays `x`, `y` and `r` of `m`. -/
def InArrays (m : Mem α) (v : Int) : Prop :=
  0 ≤ v ∧ v < m.x.length ∧ v < m.y.length ∧ v < m.r.length

/-! ## Concrete inputs -/

/-- Three particles `P0 = (0, 0, r = 1)`, `P1 = (1, 0, r = 1)` and
`P2 = (10, 10, r = 1)`, with output buffers that still hold old values. -/
def threeParticles : Mem F32 :=
  { x := [F32.ofBits 0, F32.ofBits 0x3F800000, F32.ofBits 0x41200000],
    y := [F32.ofBits 0, F32.ofBits 0, F32.ofBits 0x41200000],
    r := [F32.ofBits 0x3F800000, F32.ofBits 0x3F800000, F32.ofBits 0x3F800000],
    nPairs := [7],
    pairs := [9, 9, 9, 9, 9, 9] }

/-- Four particles, all at `(0, 0)` with `r = 5`. -/
def fourOverlapping : Mem F32 :=
  { x := [F32.ofBits 0, F32.ofBits 0, F32.ofBits 0, F32.ofBits 0],
    y := [F32.ofBits 0, F32.ofBits 0, F32.ofBits 0, F32.ofBits 0],
    r := [F32.ofBits 0x40A00000, F32.ofBits 0x40A00000, F32.ofBits 0x40A00000,
          F32.ofBits 0x40A00000],
    nPairs := [0],
    pairs := [0, 0, 0, 0, 0, 0, 0, 0, 0, 0, 0, 0] }

/-- One particle `(1, 2, r = 1)`, an old count in `nPairs` and two old values in `pairs`. -/
def oneParticle : Mem F32 :=
  { x := [F32.ofBits 0x3F800000],
    y := [F32.ofBits 0x40000000],
    r := [F32.ofBits 0x3F800000],
    nPairs := [5],
    pairs := [8, 8] }

/-- The three particles of `threeParticles` with other old values in longer output buffers. -/
def threeParticlesAgain : Mem F32 :=
  { threeParticles with nPairs := [-4, 3], pairs := [6, 5, 4, 3, 2, 1, 0, -1] }

/-- No particle at all: `x`, `y` and `r` are empty, so is `pairs`. -/
def noParticles : Mem F32 :=
  { x := [], y := [], r := [], nPairs := [5], pairs := [] }

/-- Three particles at `(0, 0)` with `r = 1`, the middle one with a NaN as `x`. -/
def nanParticles : Mem F32 :=
  { x := [F32.ofBits 0, F32.ofBits 0x7FC00000, F32.ofBits 0],
    y := [F32.ofBits 0, F32.ofBits 0, F32.ofBits 0],
    r := [F32.ofBits 0x3F800000, F32.ofBits 0x3F800000, F32.ofBits 0x3F800000],
    nPairs := [0],
    pairs := [0, 0, 0, 0, 0, 0] }

/-- Three particles at `(0, 0)`: two points (`r = 0`) and one with `r = 1`. -/
def pointParticles : Mem F32 :=
  { x := [F32.ofBits 0, F32.ofBits 0, F32.ofBits 0],
    y := [F32.ofBits 0, F32.ofBits 0, F32.ofBits 0],
    r := [F32.ofBits 0, F32.ofBits 0, F32.ofBits 0x3F800000],
    nPairs := [0],
    pairs := [0, 0, 0, 0, 0, 0] }

instance (n : Int) (m : Mem α) : Decidable (WellFormed n m) := by
  unfold WellFormed
  infer_instance

/-! ## Binary32 arithmetic -/

namespace F32

theorem bitLenAux_zero (fuel : Nat) : bitLenAux fuel 0 = 0 := by
  cases fuel <;> simp [bitLenAux]

theorem bitLenAux_spec : ∀ (fuel a : Nat), a ≤ fuel →
    a < 2 ^ bitLenAux fuel a ∧ (0 < a → 2 ^ (bitLenAux fuel a - 1) ≤ a) := by
  intro fuel
  induction fuel with
  | zero =>
    intro a h
    have : a = 0 := by omega
    subst this
    simp [bitLenAux]
  | succ fuel ih =>
    intro a h
    by_cases ha : a = 0
    · subst ha; simp [bitLenAux]
    · have hle : a / 2 ≤ fuel := by omega
      obtain ⟨h1, h2⟩ := ih (a / 2) hle
      simp only [bitLenAux, if_neg ha, Nat.add_sub_cancel]
      constructor
      · rw [Nat.pow_succ]; omega
      · intro _
        by_cases hq : a / 2 = 0
        · rw [hq, bitLenAux_zero]; simp; omega
        · have h3 := h2 (by omega)
          have hpos : 0 < bitLenAux fuel (a / 2) := by
            by_contra hc
            have : bitLenAux fuel (a / 2) = 0 := by omega
            rw [this] at h1
            simp at h1
            exact hq h1
          have e : bitLenAux fuel (a / 2) = (bitLenAux fuel (a / 2) - 1) + 1 := by omega
          rw [e, Nat.pow_succ]
          omega

/-- `bitLen a` is the length of the binary expansion of `a`. -/
theorem bitLen_spec (a : Nat) : a < 2 ^ bitLen a ∧ (0 < a → 2 ^ (bitLen a - 1) ≤ a) :=
  bitLenAux_spec a a (le_refl a)

/-- `roundNat` rounds to a nearest multiple of `2^sh`: the error is at most half of `2^sh`. -/
theorem roundNat_nearest (a t : Nat) :
    2 * ((roundNat a t * 2 ^ t : Int) - a).natAbs ≤ 2 ^ max t (bitLen a - 24) := by
  have hsh : t ≤ max t (bitLen a - 24) := le_max_left _ _
  unfold roundNat
  simp only []
  generalize max t (bitLen a - 24) = sh at hsh
  have hP : 0 < 2 ^ sh := Nat.pow_pos (by decide)
  have hdm : 2 ^ sh * (a / 2 ^ sh) + a % 2 ^ sh = a := Nat.div_add_mod a (2 ^ sh)
  have hmod : a % 2 ^ sh < 2 ^ sh := Nat.mod_lt a hP
  have hpow : 2 ^ (sh - t) * 2 ^ t = 2 ^ sh := by rw [← Nat.pow_add, Nat.sub_add_cancel hsh]
  have hq : a >>> sh = a / 2 ^ sh := Nat.shiftRight_eq_div_pow a sh
  have hone : 1 <<< sh = 2 ^ sh := by rw [Nat.shiftLeft_eq, Nat.one_mul]
  have hrem : a - (a / 2 ^ sh) <<< sh = a % 2 ^ sh := by
    rw [Nat.shiftLeft_eq, Nat.mul_comm]; omega
  rw [hq, hone, hrem]
  generalize hqd : a / 2 ^ sh = q at hdm
  generalize hrd : a % 2 ^ sh = rem at hdm hmod
  have key : ∀ c : Nat, ((c <<< (sh - t) * 2 ^ t : Nat) : Int) = (c : Int) * (2 ^ sh : Nat) := by
    intro c
    rw [Nat.shiftLeft_eq, Nat.mul_assoc, hpow]
    push_cast
    ring
  have cast : ∀ c : Nat, ((c <<< (sh - t) : Nat) : Int) * 2 ^ t
      = ((c <<< (sh - t) * 2 ^ t : Nat) : Int) := by
    intro c; push_cast; ring
  have hdmz : ((2 ^ sh : Nat) : Int) * q + rem = a := by exact_mod_cast hdm
  generalize (2 ^ sh : Nat) = P at *
  split
  · rename_i hup
    simp only [Bool.or_eq_true, Bool.and_eq_true, decide_eq_true_eq] at hup
    rw [cast, key]
    have e : ((q + 1 : Nat) : Int) * (P : Int) = (P : Int) * q + P := by push_cast; ring
    rw [e]
    omega
  · rename_i hup
    simp only [Bool.or_eq_true, Bool.and_eq_true, decide_eq_true_eq, not_or] at hup
    rw [cast, key]
    have e : (q : Int) * (P : Int) = (P : Int) * q := by ring
    rw [e]
    omega

theorem roundNat_zero (t : Nat) : roundNat 0 t = 0 := by
  have h : ∀ s : Nat, ¬ (1 <<< s = 0) := by
    intro s
    rw [Nat.shiftLeft_eq, Nat.one_mul]
    exact Nat.pos_iff_ne_zero.mp (Nat.pow_pos (by decide))
  simp [roundNat, bitLen, bitLenAux, h, eq_comm]

theorem rnd_zero (t : Nat) : rnd 0 t = fin 0 := by
  simp [rnd, roundNat_zero]

theorem rnd_neg (z : Int) (t : Nat) : rnd (-z) t = neg (rnd z t) := by
  rcases lt_trichotomy z 0 with h | h | h
  · have h1 : ¬ (-z < 0) := by omega
    simp only [rnd, Int.natAbs_neg, h, h1, if_true, if_false, decide_True, decide_False]
    split <;> simp [neg]
  · subst h
    simp [rnd_zero, neg]
  · have h1 : -z < 0 := by omega
    have h2 : ¬ (z < 0) := by omega
    simp only [rnd, Int.natAbs_neg, h1, h2, if_true, if_false, decide_True, decide_False]
    split <;> simp [neg]

theorem add_comm (a b : F32) : a + b = b + a := by
  show add a b = add b a
  cases a with
  | nan => cases b <;> rfl
  | inf s =>
    cases b with
    | nan => rfl
    | inf s2 => cases s <;> cases s2 <;> rfl
    | fin k => rfl
  | fin k =>
    cases b with
    | nan => rfl
    | inf s2 => rfl
    | fin k2 => simp only [add, Int.add_comm]

theorem sub_eq_neg_sub (a b : F32) : a - b = neg (b - a) := by
  show sub a b = neg (sub b a)
  cases a with
  | nan => cases b <;> rfl
  | inf s =>
    cases b with
    | nan => rfl
    | inf s2 => cases s <;> cases s2 <;> rfl
    | fin k => simp [sub, neg]
  | fin k =>
    cases b with
    | nan => rfl
    | inf s2 => simp [sub, neg]
    | fin k2 => simp only [sub, ← rnd_neg, Int.neg_sub]

theorem neg_mul_neg (a : F32) : neg a * neg a = a * a := by
  show mul (neg a) (neg a) = mul a a
  cases a with
  | nan => rfl
  | inf s => cases s <;> rfl
  | fin k => simp only [neg, mul, Int.neg_mul_neg]

theorem lt_irrefl (a : F32) : ¬ a < a := by
  show ¬ (lt a a = true)
  cases a with
  | nan => simp [lt]
  | inf s => cases s <;> simp [lt]
  | fin k => simp [lt]

/-- Some results of the model next to the IEEE-754 encodings of the results of
binary32 hardware: ties go to the even significand, sums past the largest
finite value are infinite, products below half the smallest subnormal are
zero, and `inf - inf` and `inf * 0` are NaN. -/
theorem arithmetic_examples :
    ofBits 0x4B800000 + ofBits 0x3F800000 = ofBits 0x4B800000 ∧
    ofBits 0x4B800000 + ofBits 0x40400000 = ofBits 0x4B800002 ∧
    ofBits 0x7F7FFFFF + ofBits 0x7F7FFFFF = ofBits 0x7F800000 ∧
    ofBits 0x7F7FFFFF + ofBits 0x73000000 = ofBits 0x7F800000 ∧
    ofBits 0x7F7FFFFF + ofBits 0x72FFFFFF = ofBits 0x7F7FFFFF ∧
    ofBits 0x00000001 * ofBits 0x3F000000 = ofBits 0x00000000 ∧
    ofBits 0x00000003 * ofBits 0x3F000000 = ofBits 0x00000002 ∧
    ofBits 0x3DCCCCCD * ofBits 0x3DCCCCCD = ofBits 0x3C23D70B ∧
    ofBits 0x45808800 * ofBits 0x45808800 = ofBits 0x4B811090 ∧
    ofBits 0x3F800000 - ofBits 0x33800000 = ofBits 0x3F7FFFFF ∧
    ofBits 0x3F800000 - ofBits 0x33000000 = ofBits 0x3F800000 ∧
    ofBits 0x7F800000 - ofBits 0x7F800000 = ofBits 0xFFC00000 ∧
    ofBits 0x7F800000 * ofBits 0x00000000 = ofBits 0xFFC00000 ∧
    ¬ (ofBits 0xFFC00000 < ofBits 0x7F800000) ∧
    ofBits 0xFF800000 < ofBits 0x80000001 := by
  set_option maxRecDepth 10000 in decide

theorem lt_iff_val (a b : F32) (A B : ℚ) (ha : val a = some A) (hb : val b = some B) :
    a < b ↔ A < B := by
  show lt a b = true ↔ A < B
  cases a with
  | nan => simp [val] at ha
  | inf s => simp [val] at ha
  | fin k =>
    cases b with
    | nan => simp [val] at hb
    | inf s => simp [val] at hb
    | fin k2 =>
      simp only [val, Option.some.injEq] at ha hb
      subst ha hb
      have h2 : (0 : ℚ) < 2 ^ 149 := by positivity
      simp only [lt, decide_eq_true_eq]
      rw [div_lt_div_iff_of_pos_right h2, Int.cast_lt]

theorem nan_sub (b : F32) : nan - b = nan := by
  cases b <;> rfl

theorem sub_nan (a : F32) : a - nan = nan := by
  cases a <;> rfl

theorem nan_add (b : F32) : nan + b = nan := by
  cases b <;> rfl

theorem add_nan (a : F32) : a + nan = nan := by
  cases a <;> rfl

theorem nan_mul (b : F32) : nan * b = nan := by
  cases b <;> rfl

theorem mul_nan (a : F32) : a * nan = nan := by
  cases a <;> rfl

theorem not_nan_lt (b : F32) : ¬ nan < b := by
  show ¬ (lt nan b = true)
  simp [lt]

theorem not_lt_nan (a : F32) : ¬ a < nan := by
  show ¬ (lt a nan = true)
  cases a <;> simp [lt]

theorem neg_add_neg (a b : F32) : neg a + neg b = neg (a + b) := by
  show add (neg a) (neg b) = neg (add a b)
  cases a with
  | nan => cases b <;> rfl
  | inf s =>
    cases b with
    | nan => rfl
    | inf s2 => cases s <;> cases s2 <;> rfl
    | fin k => rfl
  | fin k =>
    cases b with
    | nan => rfl
    | inf s2 => rfl
    | fin k2 =>
      show rnd (-k + -k2) 0 = neg (rnd (k + k2) 0)
      rw [← rnd_neg, Int.neg_add]

theorem notNegative_rnd (z : Int) (t : Nat) (hz : 0 ≤ z) : notNegative (rnd z t) = true := by
  have h : ¬ z < 0 := by omega
  simp only [rnd, h, if_false, decide_False]
  split <;> simp [notNegative]

theorem notNegative_mul_self (a : F32) : notNegative (a * a) = true := by
  show notNegative (mul a a) = true
  cases a with
  | nan => rfl
  | inf s => cases s <;> rfl
  | fin k =>
    show notNegative (rnd (k * k) 149) = true
    exact notNegative_rnd (k * k) 149 (mul_self_nonneg k)

theorem notNegative_add (a b : F32) (ha : notNegative a = true) (hb : notNegative b = true) :
    notNegative (a + b) = true := by
  show notNegative (add a b) = true
  cases a with
  | nan => cases b <;> rfl
  | inf s =>
    cases b with
    | nan => rfl
    | inf s2 =>
      simp only [notNegative, Bool.not_eq_true'] at ha hb
      subst ha hb
      rfl
    | fin k => exact ha
  | fin k =>
    cases b with
    | nan => rfl
    | inf s2 => exact hb
    | fin k2 =>
      simp only [notNegative, decide_eq_true_eq] at ha hb
      show notNegative (rnd (k + k2) 0) = true
      exact notNegative_rnd (k + k2) 0 (by omega)

theorem not_lt_zero_of_notNegative (a : F32) (ha : notNegative a = true) : ¬ a < fin 0 := by
  show ¬ (lt a (fin 0) = true)
  cases a with
  | nan => simp [lt]
  | inf s => simpa [lt, notNegative] using ha
  | fin k =>
    simp only [notNegative, decide_eq_true_eq] at ha
    simp only [lt, decide_eq_true_eq]
    omega

theorem zero_mul_zero : fin 0 * fin 0 = fin 0 := by
  show mul (fin 0) (fin 0) = fin 0
  simp only [mul, Int.mul_zero, rnd_zero]

end F32

/-! ## Lists, loads and stores -/

theorem length_flatPairs (ps : List (Int × Int)) : (flatPairs ps).length = 2 * ps.length := by
  induction ps with
  | nil => rfl
  | cons p ps ih =>
    simp only [flatPairs, List.flatMap_cons, List.length_append, List.length_cons,
      List.length_nil] at ih ⊢
    omega

theorem flatPairs_append (ps qs : List (Int × Int)) :
    flatPairs (ps ++ qs) = flatPairs ps ++ flatPairs qs := by
  simp [flatPairs, List.flatMap_append]

theorem load_of_lt {β : Type} {a : List β} {i : Int} (h0 : 0 ≤ i) (h1 : i < a.length) :
    ∃ v, load a i = some v := by
  have h : i.toNat < a.length := by omega
  exact ⟨a[i.toNat], by simp [load, h0, List.getElem?_eq_getElem h]⟩

theorem load_natCast {β : Type} (a : List β) (k : Nat) : load a (k : Int) = a[k]? := by
  simp [load]

theorem store_natCast {β : Type} (a : List β) (k : Nat) (v : β) (h : k < a.length) :
    store a (k : Int) v = some (a.set k v) := by
  simp [store, h]

/-- Two stores right behind a prefix of the buffer replace the next two cells. -/
theorem set_two_after {β : Type} (pre buf : List β) (a b : β)
    (h : pre.length + 2 ≤ buf.length) :
    ((pre ++ buf.drop pre.length).set pre.length a).set (pre.length + 1) b
      = (pre ++ [a, b]) ++ buf.drop (pre.length + 2) := by
  have h1 : pre.length < buf.length := by omega
  have h2 : pre.length + 1 < buf.length := by omega
  have e : buf.drop pre.length
      = buf[pre.length] :: buf[pre.length + 1] :: buf.drop (pre.length + 2) := by
    rw [List.drop_eq_getElem_cons h1, List.drop_eq_getElem_cons h2]
  rw [e, List.set_append, if_neg (Nat.lt_irrefl _), Nat.sub_self, List.set_cons_zero,
    List.set_append, if_neg (by omega), show pre.length + 1 - pre.length = 1 by omega,
    List.set_cons_succ, List.set_cons_zero, List.append_assoc]
  rfl

/-! ## One iteration -/

theorem pairStep_stateAfter (m : Mem α) (done : List (Int × Int)) (c : Nat) (i j : Int)
    (hi : InArrays m i) (hj : InArrays m j) (hn : 1 ≤ m.nPairs.length)
    (hcap : overlaps m (i, j) = true → 2 * (done.length + 1) ≤ m.pairs.length) :
    pairStep i j (stateAfter m done c)
      = some (stateAfter m (done ++ [(i, j)].filter (overlaps m)) (c + 1)) := by
  obtain ⟨xi, hxi⟩ := load_of_lt hi.1 hi.2.1
  obtain ⟨yi, hyi⟩ := load_of_lt hi.1 hi.2.2.1
  obtain ⟨ri, hri⟩ := load_of_lt hi.1 hi.2.2.2
  obtain ⟨xj, hxj⟩ := load_of_lt hj.1 hj.2.1
  obtain ⟨yj, hyj⟩ := load_of_lt hj.1 hj.2.2.1
  obtain ⟨rj, hrj⟩ := load_of_lt hj.1 hj.2.2.2
  have hov : overlaps m (i, j) = decide (check_distance xi yi ri xj yj rj ≠ 0) := by
    simp only [overlaps, hxi, hyi, hri, hxj, hyj, hrj]
  by_cases hc : check_distance xi yi ri xj yj rj ≠ 0
  · have hov1 : overlaps m (i, j) = true := by rw [hov]; exact decide_eq_true hc
    have hroom := hcap hov1
    have hlen := length_flatPairs done
    have e0 : load (m.nPairs.set 0 (done.length : Int)) 0 = some (done.length : Int) := by
      have := load_natCast (m.nPairs.set 0 (done.length : Int)) 0
      simp only [Nat.cast_zero] at this
      rw [this, List.getElem?_set_self (by omega)]
    have e1 : store (m.nPairs.set 0 (done.length : Int)) 0 ((done.length : Int) + 1)
        = some (m.nPairs.set 0 ((done.length + 1 : Nat) : Int)) := by
      have := store_natCast (m.nPairs.set 0 (done.length : Int)) 0 ((done.length : Int) + 1)
        (by simp only [List.length_set]; omega)
      simp only [Nat.cast_zero] at this
      rw [this, List.set_set]; simp
    have e2 : store (flatPairs done ++ m.pairs.drop (2 * done.length)) (2 * (done.length : Int)) i
        = some ((flatPairs done ++ m.pairs.drop (2 * done.length)).set (2 * done.length) i) := by
      have := store_natCast (flatPairs done ++ m.pairs.drop (2 * done.length)) (2 * done.length) i
        (by simp only [List.length_append, List.length_drop]; omega)
      simpa using this
    have e3 : store ((flatPairs done ++ m.pairs.drop (2 * done.length)).set (2 * done.length) i)
        (2 * (done.length : Int) + 1) j
        = some (((flatPairs done ++ m.pairs.drop (2 * done.length)).set (2 * done.length) i).set
            (2 * done.length + 1) j) := by
      have := store_natCast
        ((flatPairs done ++ m.pairs.drop (2 * done.length)).set (2 * done.length) i)
        (2 * done.length + 1) j
        (by simp only [List.length_set, List.length_append, List.length_drop]; omega)
      simpa using this
    have e4 : ((flatPairs done ++ m.pairs.drop (2 * done.length)).set (2 * done.length) i).set
        (2 * done.length + 1) j
        = flatPairs (done ++ [(i, j)]) ++ m.pairs.drop (2 * (done.length + 1)) := by
      have := set_two_after (flatPairs done) m.pairs i j (by omega)
      rw [hlen] at this
      rw [this, flatPairs_append]
      rfl
    have hf : [(i, j)].filter (overlaps m) = [(i, j)] := by simp [hov1]
    rw [hf]
    simp only [pairStep, stateAfter, hxi, hyi, hri, hxj, hyj, hrj, Option.bind_eq_bind,
      Option.some_bind, if_pos hc, e0, e1, e2, e3, e4, Option.pure_def,
      List.length_append, List.length_cons, List.length_nil]
    simp only [Option.some.injEq, State.mk.injEq, true_and]
    refine ⟨by push_cast; ring, by ring⟩
  · have hov0 : overlaps m (i, j) = false := by rw [hov]; exact decide_eq_false hc
    have hf : [(i, j)].filter (overlaps m) = [] := by simp [hov0]
    rw [hf, List.append_nil]
    simp only [pairStep, stateAfter, hxi, hyi, hri, hxj, hyj, hrj, Option.bind_eq_bind,
      Option.some_bind, if_neg hc, Option.pure_def]

/-! ## The loops -/

theorem forLoop_eq_foldlM {σ : Type} (hi : Int) (body : Int → σ → Option σ) :
    ∀ (t : Nat) (v : Int) (s : σ), t = (hi - v).toNat →
      forLoop hi body t v s = (intRange v t).foldlM (fun s v => body v s) s := by
  intro t
  induction t with
  | zero =>
    intro v s h
    have hv : ¬ v < hi := by omega
    simp [forLoop, intRange, hv]
  | succ t ih =>
    intro v s h
    have hv : v < hi := by omega
    simp only [forLoop, intRange, if_pos hv, List.foldlM_cons]
    cases hb : body v s with
    | none => rfl
    | some s1 =>
      simp only [Option.some_bind, Option.bind_eq_bind]
      exact ih (v + 1) s1 (by omega)

theorem foldlM_flatMap {σ β γ : Type} (f : β → List γ) (g : σ → γ → Option σ) :
    ∀ (l : List β) (s : σ),
      (l.flatMap f).foldlM g s = l.foldlM (fun s a => (f a).foldlM g s) s := by
  intro l
  induction l with
  | nil => intro s; rfl
  | cons a l ih =>
    intro s
    simp only [List.flatMap_cons, List.foldlM_append, List.foldlM_cons]
    cases (f a).foldlM g s with
    | none => rfl
    | some s1 => simpa using ih s1

theorem mem_intRange (v : Int) : ∀ (t : Nat) (lo : Int), v ∈ intRange lo t ↔ lo ≤ v ∧ v < lo + t := by
  intro t
  induction t with
  | zero => intro lo; simp [intRange]
  | succ t ih =>
    intro lo
    simp only [intRange, List.mem_cons, ih]
    push_cast
    omega

theorem length_intRange : ∀ (t : Nat) (lo : Int), (intRange lo t).length = t := by
  intro t
  induction t with
  | zero => intro lo; rfl
  | succ t ih => intro lo; simp [intRange, ih]

theorem mem_upperTriangle (n : Int) (p : Int × Int) :
    p ∈ upperTriangle n ↔ 0 ≤ p.1 ∧ p.1 < p.2 ∧ p.2 < n := by
  obtain ⟨i, j⟩ := p
  simp only [upperTriangle, List.mem_flatMap, List.mem_map, mem_intRange, Prod.mk.injEq]
  constructor
  · rintro ⟨a, ha, b, hb, rfl, rfl⟩
    omega
  · intro h
    exact ⟨i, by omega, j, by omega, rfl, rfl⟩

theorem loops_eq_foldlM (n : Int) (s : State α) :
    forLoop (n - 1)
        (fun i s => forLoop n (fun j s => pairStep i j s) (n - (i + 1)).toNat (i + 1) s)
        (n - 1 - 0).toNat 0 s
      = (upperTriangle n).foldlM (fun s p => pairStep p.1 p.2 s) s := by
  rw [forLoop_eq_foldlM (n - 1) _ (n - 1 - 0).toNat 0 s rfl, upperTriangle, foldlM_flatMap]
  simp only [sub_zero]
  congr 1
  funext s i
  rw [forLoop_eq_foldlM n _ (n - (i + 1)).toNat (i + 1) s rfl, List.foldlM_map]

theorem foldlM_pairStep (m : Mem α) (hn : 1 ≤ m.nPairs.length) :
    ∀ (l : List (Int × Int)) (done : List (Int × Int)) (c : Nat),
      (∀ p ∈ l, InArrays m p.1 ∧ InArrays m p.2) →
      2 * (done.length + (l.filter (overlaps m)).length) ≤ m.pairs.length →
      l.foldlM (fun s p => pairStep p.1 p.2 s) (stateAfter m done c)
        = some (stateAfter m (done ++ l.filter (overlaps m)) (c + l.length)) := by
  intro l
  induction l with
  | nil => intro done c _ _; simp
  | cons p l ih =>
    intro done c hin hcap
    have hp := hin p (List.mem_cons_self _ _)
    have hsplit : (p :: l).filter (overlaps m)
        = [p].filter (overlaps m) ++ l.filter (overlaps m) := by
      rw [← List.filter_append]; rfl
    rw [hsplit, List.length_append] at hcap
    have hstep := pairStep_stateAfter m done c p.1 p.2 hp.1 hp.2 hn (by
      intro hov
      have : [p].filter (overlaps m) = [p] := by simp [hov]
      rw [this] at hcap
      simp only [List.length_cons, List.length_nil] at hcap
      omega)
    rw [List.foldlM_cons, hstep]
    simp only [Option.some_bind, Option.bind_eq_bind]
    rw [ih (done ++ [p].filter (overlaps m)) (c + 1)
      (fun q hq => hin q (List.mem_cons_of_mem _ hq))
      (by rw [List.length_append]; omega)]
    rw [hsplit, List.append_assoc, List.length_cons]
    congr 2
    omega

/-- The run of a well-formed call: it returns, and the state at the return has
the colliding pairs, in iteration order, at the front of `pairs`. -/
theorem detect_collisions_run (n : Int) (m : Mem α) (h : WellFormed n m) :
    detect_collisions n m
      = some (stateAfter m (collisions n m) (upperTriangle n).length) := by
  obtain ⟨hx, hy, hr, hn, hcap⟩ := h
  have h0 : store m.nPairs 0 0 = some (m.nPairs.set 0 0) := by
    have := store_natCast m.nPairs 0 (0 : Int) (by omega)
    simpa using this
  have hs : ({ mem := { m with nPairs := m.nPairs.set 0 0 }, k := 0, calls := 0, stores := 0 }
      : State α) = stateAfter m [] 0 := by
    simp [stateAfter, flatPairs]
  simp only [detect_collisions, h0, Option.bind_eq_bind, Option.some_bind]
  rw [hs, loops_eq_foldlM, foldlM_pairStep m hn (upperTriangle n) [] 0]
  · simp [collisions]
  · intro p hp
    rw [mem_upperTriangle] at hp
    exact ⟨⟨by omega, by omega, by omega, by omega⟩, ⟨by omega, by omega, by omega, by omega⟩⟩
  · simpa [collisions] using hcap

/-! ## Reading the result back -/

theorem flatPairs_getElem? : ∀ (ps : List (Int × Int)) (k : Nat) (p : Int × Int),
    ps[k]? = some p →
      (flatPairs ps)[2 * k]? = some p.1 ∧ (flatPairs ps)[2 * k + 1]? = some p.2 := by
  intro ps
  induction ps with
  | nil => intro k p h; simp at h
  | cons q ps ih =>
    intro k p h
    cases k with
    | zero =>
      simp only [List.getElem?_cons_zero, Option.some.injEq] at h
      subst h
      simp [flatPairs]
    | succ k =>
      simp only [List.getElem?_cons_succ] at h
      have := ih k p h
      have e : flatPairs (q :: ps) = q.1 :: q.2 :: flatPairs ps := by simp [flatPairs]
      rw [e, show 2 * (k + 1) = 2 * k + 1 + 1 by ring]
      simpa using this

theorem readPairs_flatPairs (ps : List (Int × Int)) (rest : List Int) :
    ∀ k : Nat, k ≤ ps.length → readPairs (flatPairs ps ++ rest) k = some (ps.take k) := by
  intro k
  induction k with
  | zero => intro _; simp [readPairs]
  | succ k ih =>
    intro hk
    have hlt : k < ps.length := by omega
    have hget : ps[k]? = some ps[k] := List.getElem?_eq_getElem hlt
    obtain ⟨h1, h2⟩ := flatPairs_getElem? ps k ps[k] hget
    have hlen := length_flatPairs ps
    have g1 : (flatPairs ps ++ rest)[2 * k]? = some ps[k].1 := by
      rw [List.getElem?_append_left (by omega)]; exact h1
    have g2 : (flatPairs ps ++ rest)[2 * k + 1]? = some ps[k].2 := by
      rw [List.getElem?_append_left (by omega)]; exact h2
    simp only [readPairs, ih (by omega), g1, g2, Option.bind_eq_bind, Option.some_bind,
      Option.pure_def, List.take_succ, hget, Option.toList_some]

omit [Add α] [Sub α] [Mul α] [LT α] [DecidableRel (fun a b : α => a < b)] in
theorem emitted_stateAfter (m : Mem α) (ps : List (Int × Int)) (c : Nat)
    (hn : 1 ≤ m.nPairs.length) : emitted (stateAfter m ps c) = some ps := by
  have e0 : load (m.nPairs.set 0 (ps.length : Int)) 0 = some (ps.length : Int) := by
    have := load_natCast (m.nPairs.set 0 (ps.length : Int)) 0
    simp only [Nat.cast_zero] at this
    rw [this, List.getElem?_set_self (by omega)]
  simp only [emitted, stateAfter, e0, Option.bind_eq_bind, Option.some_bind,
    Int.natCast_nonneg, if_true, Int.toNat_ofNat]
  rw [readPairs_flatPairs ps _ ps.length (le_refl _), List.take_length]

/-- A well-formed call returns, and what the caller reads back is the list of
colliding pairs in iteration order. -/
theorem detect_collisions_emitted (n : Int) (m : Mem α) (h : WellFormed n m) :
    ∃ s, detect_collisions n m = some s ∧ emitted s = some (collisions n m) :=
  ⟨_, detect_collisions_run n m h, emitted_stateAfter m _ _ h.2.2.2.1⟩

/-! ## The enumeration -/

theorem pairwise_intRange : ∀ (t : Nat) (lo : Int), (intRange lo t).Pairwise (fun a b => a < b) := by
  intro t
  induction t with
  | zero => intro lo; simp [intRange]
  | succ t ih =>
    intro lo
    simp only [intRange, List.pairwise_cons]
    refine ⟨fun b hb => ?_, ih (lo + 1)⟩
    rw [mem_intRange] at hb
    omega

theorem pairwise_upperTriangle (n : Int) : (upperTriangle n).Pairwise lexLt := by
  rw [upperTriangle, List.pairwise_flatMap]
  constructor
  · intro i _
    rw [List.pairwise_map]
    exact (pairwise_intRange _ _).imp fun h => Or.inr ⟨rfl, h⟩
  · refine (pairwise_intRange _ _).imp ?_
    intro a b hab p hp q hq
    simp only [List.mem_map] at hp hq
    obtain ⟨_, _, rfl⟩ := hp
    obtain ⟨_, _, rfl⟩ := hq
    exact Or.inl hab

theorem pairwise_collisions (n : Int) (m : Mem α) : (collisions n m).Pairwise lexLt :=
  (pairwise_upperTriangle n).filter _

theorem lexLt_irrefl (p : Int × Int) : ¬ lexLt p p := by
  simp [lexLt]

theorem nodup_collisions (n : Int) (m : Mem α) : (collisions n m).Nodup :=
  (pairwise_collisions n m).imp
    (fun {a b} (h : lexLt a b) (e : a = b) => lexLt_irrefl b (e ▸ h))

theorem mem_collisions (n : Int) (m : Mem α) (p : Int × Int) :
    p ∈ collisions n m ↔ (0 ≤ p.1 ∧ p.1 < p.2 ∧ p.2 < n) ∧ overlaps m p = true := by
  simp [collisions, List.mem_filter, mem_upperTriangle]

/-- Twice the number of iterations of the inner loop over `t` consecutive
outer iterations that end with `i = n - 2`. -/
theorem length_triangle_aux (n : Int) : ∀ (t : Nat) (lo : Int), lo + t = n - 1 →
    2 * ((intRange lo t).flatMap fun i =>
      (intRange (i + 1) (n - (i + 1)).toNat).map fun j => (i, j)).length = t * (t + 1) := by
  intro t
  induction t with
  | zero => intro lo _; simp [intRange]
  | succ t ih =>
    intro lo h
    have ht : (n - (lo + 1)).toNat = t + 1 := by push_cast at h; omega
    simp only [intRange, List.flatMap_cons, List.length_append, List.length_map,
      length_intRange]
    rw [ht, Nat.mul_add, ih (lo + 1) (by push_cast at h ⊢; omega)]
    ring

theorem two_mul_length_upperTriangle (n : Int) (hn : 0 ≤ n) :
    2 * ((upperTriangle n).length : Int) = n * (n - 1) := by
  rcases lt_or_ge 0 n with h | h
  · have h2 := length_triangle_aux n (n - 1).toNat 0 (by omega)
    have hcast : (((n - 1).toNat : Nat) : Int) = n - 1 := by omega
    have h3 : 2 * ((upperTriangle n).length : Int) = (n - 1) * ((n - 1) + 1) := by
      have := congrArg (fun k : Nat => (k : Int)) h2
      simp only [Nat.cast_mul, Nat.cast_add, Nat.cast_one, hcast, Nat.cast_ofNat] at this
      exact this
    rw [h3]; ring
  · have h0 : n = 0 := by omega
    subst h0
    simp [upperTriangle, intRange]

theorem length_upperTriangle (n : Int) (hn : 0 ≤ n) :
    ((upperTriangle n).length : Int) = n * (n - 1) / 2 := by
  rw [← two_mul_length_upperTriangle n hn]
  simp

/-- A `pairs` buffer of the worst-case size `n * (n - 1)` makes the call well-formed. -/
theorem wellFormed_of_worst_case (n : Int) (m : Mem α) (hn : 0 ≤ n)
    (hx : n ≤ m.x.length) (hy : n ≤ m.y.length) (hr : n ≤ m.r.length)
    (hnp : 1 ≤ m.nPairs.length) (hcap : n * (n - 1) ≤ m.pairs.length) : WellFormed n m := by
  refine ⟨hx, hy, hr, hnp, ?_⟩
  have h1 : (collisions n m).length ≤ (upperTriangle n).length := List.length_filter_le _ _
  have h2 := two_mul_length_upperTriangle n hn
  omega

omit [Add α] [Sub α] [Mul α] [LT α] [DecidableRel (fun a b : α => a < b)] in
theorem load_nPairs_stateAfter (m : Mem α) (ps : List (Int × Int)) (c : Nat)
    (hn : 1 ≤ m.nPairs.length) :
    load (stateAfter m ps c).mem.nPairs 0 = some (ps.length : Int) := by
  have := load_natCast (m.nPairs.set 0 (ps.length : Int)) 0
  simp only [Nat.cast_zero] at this
  simp only [stateAfter]
  rw [this, List.getElem?_set_self (by omega)]

omit [Add α] [Sub α] [Mul α] [LT α] [DecidableRel (fun a b : α => a < b)] in
theorem load_pairs_stateAfter (m : Mem α) (ps : List (Int × Int)) (c : Nat) (k : Nat)
    (p : Int × Int) (hp : ps[k]? = some p) :
    load (stateAfter m ps c).mem.pairs (2 * (k : Int)) = some p.1 ∧
      load (stateAfter m ps c).mem.pairs (2 * (k : Int) + 1) = some p.2 := by
  obtain ⟨h1, h2⟩ := flatPairs_getElem? ps k p hp
  have hlen := length_flatPairs ps
  have hk : k < ps.length := by
    by_contra hk
    rw [List.getElem?_eq_none (by omega)] at hp
    exact Option.noConfusion hp
  have c1 : (2 * (k : Int)) = ((2 * k : Nat) : Int) := by push_cast; ring
  have c2 : (2 * (k : Int) + 1) = ((2 * k + 1 : Nat) : Int) := by push_cast; ring
  simp only [stateAfter]
  rw [c2, c1, load_natCast, load_natCast, List.getElem?_append_left (by omega),
    List.getElem?_append_left (by omega)]
  exact ⟨h1, h2⟩

theorem overlaps_eq (m : Mem α) (i j : Int) (xi yi ri xj yj rj : α)
    (hxi : load m.x i = some xi) (hyi : load m.y i = some yi) (hri : load m.r i = some ri)
    (hxj : load m.x j = some xj) (hyj : load m.y j = some yj) (hrj : load m.r j = some rj) :
    overlaps m (i, j) = true ↔ check_distance xi yi ri xj yj rj ≠ 0 := by
  simp [overlaps, hxi, hyi, hri, hxj, hyj, hrj]

/-! ## The claims about `detect_collisions` -/

/-- C1. Soundness and completeness: after a well-formed call, a pair `(i, j)`
with `0 ≤ i < j < n` is among the first `nPairs[0]` pairs of `pairs` exactly
when `check_distance(x[i], y[i], r[i], x[j], y[j], r[j])` is true (non-zero). -/
theorem detect_collisions_sound_complete (n : Int) (m : Mem α) (h : WellFormed n m) :
    ∃ s ps, detect_collisions n m = some s ∧ emitted s = some ps ∧
      ∀ (i j : Int) (xi yi ri xj yj rj : α), 0 ≤ i → i < j → j < n →
        load m.x i = some xi → load m.y i = some yi → load m.r i = some ri →
        load m.x j = some xj → load m.y j = some yj → load m.r j = some rj →
        ((i, j) ∈ ps ↔ check_distance xi yi ri xj yj rj ≠ 0) := by
  obtain ⟨s, hs, he⟩ := detect_collisions_emitted n m h
  refine ⟨s, _, hs, he, ?_⟩
  intro i j xi yi ri xj yj rj h0 hij hjn hxi hyi hri hxj hyj hrj
  rw [mem_collisions, overlaps_eq m i j xi yi ri xj yj rj hxi hyi hri hxj hyj hrj]
  exact ⟨fun hh => hh.2, fun hh => ⟨⟨h0, hij, hjn⟩, hh⟩⟩

/-- C3. Output order: in the sequence of pairs handed back, each pair `(i, j)`
and the next one `(i', j')` satisfy `i < i'`, or `i = i'` and `j < j'`. -/
theorem detect_collisions_order (n : Int) (m : Mem α) (h : WellFormed n m) :
    ∃ s ps, detect_collisions n m = some s ∧ emitted s = some ps ∧ ps.Chain' lexLt := by
  obtain ⟨s, hs, he⟩ := detect_collisions_emitted n m h
  exact ⟨s, _, hs, he, (pairwise_collisions n m).chain'⟩

/-- C4. Count and layout: at the return `nPairs[0]` is the number of colliding
pairs, and the `k`-th colliding pair in iteration order, `(i, j)`, is stored as
`pairs[2k] = i` and `pairs[2k+1] = j`. -/
theorem detect_collisions_layout (n : Int) (m : Mem α) (h : WellFormed n m) :
    ∃ s, detect_collisions n m = some s ∧
      load s.mem.nPairs 0 = some ((collisions n m).length : Int) ∧
      ∀ (k : Nat) (p : Int × Int), (collisions n m)[k]? = some p →
        load s.mem.pairs (2 * (k : Int)) = some p.1 ∧
          load s.mem.pairs (2 * (k : Int) + 1) = some p.2 :=
  ⟨_, detect_collisions_run n m h, load_nPairs_stateAfter m _ _ h.2.2.2.1,
    fun k p hp => load_pairs_stateAfter m _ _ k p hp⟩

/-- C5. Index invariant: every pair `(i, j)` handed back satisfies `0 ≤ i < j < n`. -/
theorem detect_collisions_index_range (n : Int) (m : Mem α) (h : WellFormed n m) :
    ∃ s ps, detect_collisions n m = some s ∧ emitted s = some ps ∧
      ∀ p ∈ ps, 0 ≤ p.1 ∧ p.1 < p.2 ∧ p.2 < n := by
  obtain ⟨s, hs, he⟩ := detect_collisions_emitted n m h
  exact ⟨s, _, hs, he, fun p hp => ((mem_collisions n m p).mp hp).1⟩

/-- C6. No duplicates: no pair occurs at two positions of the sequence handed
back, and a pair and its mirror image `(j, i)` never both occur. -/
theorem detect_collisions_no_duplicates (n : Int) (m : Mem α) (h : WellFormed n m) :
    ∃ s ps, detect_collisions n m = some s ∧ emitted s = some ps ∧ ps.Nodup ∧
      ∀ i j : Int, (i, j) ∈ ps → (j, i) ∉ ps := by
  obtain ⟨s, hs, he⟩ := detect_collisions_emitted n m h
  refine ⟨s, _, hs, he, nodup_collisions n m, ?_⟩
  intro i j h1 h2
  have a := ((mem_collisions n m (i, j)).mp h1).1.2.1
  have b := ((mem_collisions n m (j, i)).mp h2).1.2.1
  simp only at a b
  omega

/-- C7. Empty and singleton input: for `n = 0` and `n = 1`, whatever `x`, `y`
and `r` hold, the call returns with `nPairs[0] = 0`, without a call of
`check_distance` and without a store into `pairs`, which is left as it was. -/
theorem detect_collisions_degenerate (n : Int) (m : Mem α) (hn : n = 0 ∨ n = 1)
    (hnp : 1 ≤ m.nPairs.length) :
    ∃ s, detect_collisions n m = some s ∧ load s.mem.nPairs 0 = some 0 ∧
      s.calls = 0 ∧ s.stores = 0 ∧ s.mem.pairs = m.pairs ∧ emitted s = some [] := by
  have h0 : store m.nPairs 0 0 = some (m.nPairs.set 0 0) := by
    have := store_natCast m.nPairs 0 (0 : Int) (by omega)
    simpa using this
  have hl : load (m.nPairs.set 0 (0 : Int)) 0 = some 0 := by
    have := load_natCast (m.nPairs.set 0 (0 : Int)) 0
    simp only [Nat.cast_zero] at this
    rw [this, List.getElem?_set_self (by omega)]
  have ht : (n - 1 - 0).toNat = 0 := by omega
  have hlt : ¬ ((0 : Int) < n - 1) := by omega
  refine ⟨{ mem := { m with nPairs := m.nPairs.set 0 0 }, k := 0, calls := 0, stores := 0 },
    ?_, hl, rfl, rfl, rfl, ?_⟩
  · simp only [detect_collisions, h0, Option.bind_eq_bind, Option.some_bind, ht, forLoop,
      if_neg hlt]
  · simp [emitted, hl, readPairs]

/-- C10. All-overlapping input: if `check_distance` is true for every pair
`i < j < n`, then what is handed back is exactly the upper-triangular
enumeration `(0,1), ..., (0,n-1), (1,2), ..., (n-2,n-1)` and
`nPairs[0] = n*(n-1)/2`. -/
theorem detect_collisions_all_overlapping (n : Int) (m : Mem α) (hn : 0 ≤ n)
    (h : WellFormed n m)
    (hall : ∀ (i j : Int) (xi yi ri xj yj rj : α), 0 ≤ i → i < j → j < n →
      load m.x i = some xi → load m.y i = some yi → load m.r i = some ri →
      load m.x j = some xj → load m.y j = some yj → load m.r j = some rj →
      check_distance xi yi ri xj yj rj ≠ 0) :
    ∃ s, detect_collisions n m = some s ∧ emitted s = some (upperTriangle n) ∧
      load s.mem.nPairs 0 = some (n * (n - 1) / 2) := by
  have hc : collisions n m = upperTriangle n := by
    rw [collisions, List.filter_eq_self]
    intro p hp
    rw [mem_upperTriangle] at hp
    obtain ⟨hx, hy, hr, _, _⟩ := h
    obtain ⟨xi, hxi⟩ := load_of_lt (a := m.x) (i := p.1) (by omega) (by omega)
    obtain ⟨yi, hyi⟩ := load_of_lt (a := m.y) (i := p.1) (by omega) (by omega)
    obtain ⟨ri, hri⟩ := load_of_lt (a := m.r) (i := p.1) (by omega) (by omega)
    obtain ⟨xj, hxj⟩ := load_of_lt (a := m.x) (i := p.2) (by omega) (by omega)
    obtain ⟨yj, hyj⟩ := load_of_lt (a := m.y) (i := p.2) (by omega) (by omega)
    obtain ⟨rj, hrj⟩ := load_of_lt (a := m.r) (i := p.2) (by omega) (by omega)
    exact (overlaps_eq m p.1 p.2 xi yi ri xj yj rj hxi hyi hri hxj hyj hrj).mpr
      (hall p.1 p.2 xi yi ri xj yj rj hp.1 hp.2.1 hp.2.2 hxi hyi hri hxj hyj hrj)
  refine ⟨_, detect_collisions_run n m h, ?_, ?_⟩
  · rw [emitted_stateAfter m _ _ h.2.2.2.1, hc]
  · rw [load_nPairs_stateAfter m _ _ h.2.2.2.1, hc, length_upperTriangle n hn]

/-! ## What a run leaves alone -/

theorem store_frame {β : Type} (a b : List β) (i : Int) (v : β) (h : store a i v = some b) :
    b.length = a.length ∧ (i = 0 → b.drop 1 = a.drop 1) := by
  unfold store at h
  split at h
  · simp only [Option.some.injEq] at h
    subst h
    refine ⟨List.length_set _ _ _, ?_⟩
    intro hi
    subst hi
    cases a <;> simp
  · exact Option.noConfusion h

theorem pairStep_frame (i j : Int) (s t : State α) (h : pairStep i j s = some t) :
    frameOf t.mem = frameOf s.mem := by
  simp only [pairStep, Option.bind_eq_bind, Option.bind_eq_some, Option.pure_def] at h
  obtain ⟨xi, _, yi, _, ri, _, xj, _, yj, _, rj, _, h⟩ := h
  split at h
  · simp only [Option.bind_eq_some, Option.some.injEq] at h
    obtain ⟨c, _, np, hnp, p, hp, q, hq, rfl⟩ := h
    obtain ⟨l1, d1⟩ := store_frame _ _ _ _ hnp
    obtain ⟨l2, _⟩ := store_frame _ _ _ _ hp
    obtain ⟨l3, _⟩ := store_frame _ _ _ _ hq
    simp only [frameOf, d1 rfl, l1, l3, l2]
  · simp only [Option.some.injEq] at h
    subst h
    rfl

/-- What every iteration of a loop preserves, the loop preserves. -/
theorem forLoop_preserves {σ τ : Type} (f : σ → τ) (hi : Int) (body : Int → σ → Option σ)
    (hbody : ∀ v s t, body v s = some t → f t = f s) :
    ∀ (fuel : Nat) (v : Int) (s t : σ), forLoop hi body fuel v s = some t → f t = f s := by
  intro fuel
  induction fuel with
  | zero =>
    intro v s t h
    simp only [forLoop] at h
    split at h
    · exact Option.noConfusion h
    · simp only [Option.some.injEq] at h
      rw [h]
  | succ fuel ih =>
    intro v s t h
    simp only [forLoop] at h
    split at h
    · simp only [Option.bind_eq_some] at h
      obtain ⟨u, hu, ht⟩ := h
      rw [ih (v + 1) u t ht, hbody v s u hu]
    · simp only [Option.some.injEq] at h
      rw [h]

theorem detect_collisions_frameOf (n : Int) (m : Mem α) (s : State α)
    (h : detect_collisions n m = some s) : frameOf s.mem = frameOf m := by
  simp only [detect_collisions, Option.bind_eq_bind, Option.bind_eq_some] at h
  obtain ⟨np, hnp, h⟩ := h
  obtain ⟨l1, d1⟩ := store_frame _ _ _ _ hnp
  have inner : ∀ (i : Int) (s t : State α),
      forLoop n (fun j s => pairStep i j s) (n - (i + 1)).toNat (i + 1) s = some t →
        frameOf t.mem = frameOf s.mem := fun i s t ht =>
    forLoop_preserves (fun s : State α => frameOf s.mem) n _
      (fun j s t hst => pairStep_frame i j s t hst) _ _ s t ht
  have outer : frameOf s.mem = frameOf _ :=
    forLoop_preserves (fun s : State α => frameOf s.mem) (n - 1) _ inner _ _ _ _ h
  rw [outer]
  simp only [frameOf, d1 rfl, l1]

theorem overlaps_congr (m1 m2 : Mem α) (hx : m1.x = m2.x) (hy : m1.y = m2.y)
    (hr : m1.r = m2.r) (p : Int × Int) : overlaps m1 p = overlaps m2 p := by
  simp only [overlaps, hx, hy, hr]

theorem collisions_congr (n : Int) (m1 m2 : Mem α) (hx : m1.x = m2.x) (hy : m1.y = m2.y)
    (hr : m1.r = m2.r) : collisions n m1 = collisions n m2 := by
  have : overlaps m1 = overlaps m2 := funext (overlaps_congr m1 m2 hx hy hr)
  simp only [collisions, this]

omit [Add α] [Sub α] [Mul α] [LT α] [DecidableRel (fun a b : α => a < b)] in
theorem take_pairs_stateAfter (m : Mem α) (ps : List (Int × Int)) (c : Nat) :
    (stateAfter m ps c).mem.pairs.take (2 * ps.length) = flatPairs ps := by
  simp only [stateAfter]
  rw [← length_flatPairs ps, List.take_left]

omit [Add α] [Sub α] [Mul α] [LT α] [DecidableRel (fun a b : α => a < b)] in
theorem getElem?_pairs_stateAfter (m : Mem α) (ps : List (Int × Int)) (c : Nat) (k : Nat)
    (hk : 2 * ps.length ≤ k) : (stateAfter m ps c).mem.pairs[k]? = m.pairs[k]? := by
  simp only [stateAfter]
  rw [List.getElem?_append_right (by rw [length_flatPairs]; exact hk), length_flatPairs,
    List.getElem?_drop]
  congr 1
  omega

/-- A call with `n ≤ 1` stores `0` into `nPairs[0]` and returns: neither loop body runs. -/
theorem detect_collisions_of_le_one (n : Int) (m : Mem α) (hn : n ≤ 1)
    (hnp : 1 ≤ m.nPairs.length) :
    detect_collisions n m
      = some { mem := { m with nPairs := m.nPairs.set 0 0 }, k := 0, calls := 0, stores := 0 } := by
  have h0 : store m.nPairs 0 0 = some (m.nPairs.set 0 0) := by
    have := store_natCast m.nPairs 0 (0 : Int) (by omega)
    simpa using this
  have ht : (n - 1 - 0).toNat = 0 := by omega
  have hlt : ¬ ((0 : Int) < n - 1) := by omega
  simp only [detect_collisions, h0, Option.bind_eq_bind, Option.some_bind, ht, forLoop,
    if_neg hlt]

/-! ## Safety, frame and resource claims -/

/-- C11. No failure with a worst-case buffer: for `n ≥ 0`, if `x`, `y` and `r`
hold `n` values, `nPairs` has a slot and `pairs` has `n * (n - 1)` cells, the
call returns, i.e. no read or write leaves its array (an access outside an
array makes the embedded run `none`).  At the return the count `c = nPairs[0]`
is at most `n * (n - 1) / 2`, the stores into `pairs` went to the cells below
`k = 2 * c ≤ n * (n - 1)`, and the cells from `n * (n - 1)` on are as before. -/
theorem detect_collisions_in_bounds (n : Int) (m : Mem α) (hn : 0 ≤ n)
    (hx : n ≤ m.x.length) (hy : n ≤ m.y.length) (hr : n ≤ m.r.length)
    (hnp : 1 ≤ m.nPairs.length) (hcap : n * (n - 1) ≤ m.pairs.length) :
    ∃ s c, detect_collisions n m = some s ∧ load s.mem.nPairs 0 = some c ∧
      0 ≤ c ∧ c ≤ n * (n - 1) / 2 ∧ s.k = 2 * c ∧ (s.stores : Int) = 2 * c ∧
      s.k ≤ n * (n - 1) ∧ ∀ k : Nat, n * (n - 1) ≤ k → s.mem.pairs[k]? = m.pairs[k]? := by
  have hw := wellFormed_of_worst_case n m hn hx hy hr hnp hcap
  have h1 : (collisions n m).length ≤ (upperTriangle n).length := List.length_filter_le _ _
  have h2 := two_mul_length_upperTriangle n hn
  refine ⟨_, ((collisions n m).length : Int), detect_collisions_run n m hw,
    load_nPairs_stateAfter m _ _ hnp, by omega, by omega, rfl, ?_, ?_, ?_⟩
  · simp only [stateAfter]; push_cast; ring
  · simp only [stateAfter]; omega
  · intro k hk
    exact getElem?_pairs_stateAfter m _ _ k (by omega)

/-- C12. Purity with respect to the inputs: a well-formed call returns, and
every call that returns leaves `x`, `y` and `r` as they were; of `nPairs`
only `nPairs[0]` can have changed, and no array has changed its size. -/
theorem detect_collisions_pure (n : Int) (m : Mem α) :
    (WellFormed n m → ∃ s, detect_collisions n m = some s) ∧
    ∀ s, detect_collisions n m = some s →
      s.mem.x = m.x ∧ s.mem.y = m.y ∧ s.mem.r = m.r ∧
      s.mem.nPairs.drop 1 = m.nPairs.drop 1 ∧
      s.mem.nPairs.length = m.nPairs.length ∧ s.mem.pairs.length = m.pairs.length := by
  refine ⟨fun h => ⟨_, detect_collisions_run n m h⟩, ?_⟩
  intro s hs
  have h := detect_collisions_frameOf n m s hs
  simp only [frameOf, Prod.mk.injEq] at h
  exact h

/-- C13. Statelessness: two well-formed calls on the same `n`, `x`, `y` and
`r`, whatever the two pairs of output buffers held before, return the same
count `c = nPairs[0]` and the same first `2 * c` entries of `pairs`. -/
theorem detect_collisions_deterministic (n : Int) (m1 m2 : Mem α)
    (hx : m1.x = m2.x) (hy : m1.y = m2.y) (hr : m1.r = m2.r)
    (h1 : WellFormed n m1) (h2 : WellFormed n m2) :
    ∃ s1 s2 c, detect_collisions n m1 = some s1 ∧ detect_collisions n m2 = some s2 ∧
      load s1.mem.nPairs 0 = some c ∧ load s2.mem.nPairs 0 = some c ∧
      s1.mem.pairs.take (2 * c).toNat = s2.mem.pairs.take (2 * c).toNat ∧
      emitted s1 = emitted s2 := by
  have hc := collisions_congr n m1 m2 hx hy hr
  have e : (2 * ((collisions n m2).length : Int)).toNat = 2 * (collisions n m2).length := by
    omega
  refine ⟨_, _, ((collisions n m2).length : Int), detect_collisions_run n m1 h1,
    detect_collisions_run n m2 h2, ?_, load_nPairs_stateAfter m2 _ _ h2.2.2.2.1, ?_, ?_⟩
  · rw [hc]; exact load_nPairs_stateAfter m1 _ _ h1.2.2.2.1
  · rw [e, take_pairs_stateAfter, hc, take_pairs_stateAfter]
  · rw [emitted_stateAfter m1 _ _ h1.2.2.2.1, emitted_stateAfter m2 _ _ h2.2.2.2.1, hc]

/-- C14. Quadratic test count: a well-formed call with `n ≥ 0` calls
`check_distance` exactly `n * (n - 1) / 2` times, whatever the calls return. -/
theorem detect_collisions_call_count (n : Int) (m : Mem α) (hn : 0 ≤ n)
    (h : WellFormed n m) :
    ∃ s, detect_collisions n m = some s ∧ (s.calls : Int) = n * (n - 1) / 2 :=
  ⟨_, detect_collisions_run n m h, length_upperTriangle n hn⟩

/-- C15, as the code has it.  For a negative `n` the guard `0 < n - 1` of the
outer loop fails at once: the call stores `0` into `nPairs[0]` and returns
without one call of `check_distance`, without a store into `pairs`, and with
`x`, `y`, `r` and `pairs` untouched, whatever their sizes. -/
theorem detect_collisions_negative (n : Int) (m : Mem α) (hn : n < 0)
    (hnp : 1 ≤ m.nPairs.length) :
    ∃ s, detect_collisions n m = some s ∧ s.calls = 0 ∧ s.stores = 0 ∧
      s.mem.x = m.x ∧ s.mem.y = m.y ∧ s.mem.r = m.r ∧ s.mem.pairs = m.pairs ∧
      s.mem.nPairs = m.nPairs.set 0 0 :=
  ⟨_, detect_collisions_of_le_one n m (by omega) hnp, rfl, rfl, rfl, rfl, rfl, rfl, rfl⟩

/-- C20. The tail of the output is left untouched: after a well-formed call
with count `c = nPairs[0]`, every cell `pairs[k]` with `k ≥ 2 * c` holds the
value it had before the call, and `pairs` has the size it had. -/
theorem detect_collisions_tail (n : Int) (m : Mem α) (h : WellFormed n m) :
    ∃ s c, detect_collisions n m = some s ∧ load s.mem.nPairs 0 = some c ∧
      s.mem.pairs.length = m.pairs.length ∧
      ∀ k : Nat, 2 * c ≤ (k : Int) → s.mem.pairs[k]? = m.pairs[k]? := by
  have hs := detect_collisions_run n m h
  have hf := detect_collisions_frameOf n m _ hs
  simp only [frameOf, Prod.mk.injEq] at hf
  refine ⟨_, ((collisions n m).length : Int), hs, load_nPairs_stateAfter m _ _ h.2.2.2.1,
    hf.2.2.2.2.2, ?_⟩
  intro k hk
  exact getElem?_pairs_stateAfter m _ _ k (by omega)

end Scalar

/-! ## The claims about `check_distance` on binary32 -/

/-- C2. `check_distance` returns 1 exactly when `d2 < s2`, for
`d2 = (x2-x1)^2 + (y2-y1)^2` and `s2 = (r1+r2)^2` computed in binary32, and 0
otherwise; the comparison is strict (`d2 = s2` gives 0) and no other value is
returned. -/
theorem check_distance_iff_lt (x1 y1 r1 x2 y2 r2 : F32) :
    (check_distance x1 y1 r1 x2 y2 r2 = 1 ↔
      (x2 - x1) * (x2 - x1) + (y2 - y1) * (y2 - y1) < (r1 + r2) * (r1 + r2)) ∧
    (check_distance x1 y1 r1 x2 y2 r2 = 0 ↔
      ¬ ((x2 - x1) * (x2 - x1) + (y2 - y1) * (y2 - y1) < (r1 + r2) * (r1 + r2))) ∧
    ((x2 - x1) * (x2 - x1) + (y2 - y1) * (y2 - y1) = (r1 + r2) * (r1 + r2) →
      check_distance x1 y1 r1 x2 y2 r2 = 0) ∧
    (check_distance x1 y1 r1 x2 y2 r2 = 0 ∨ check_distance x1 y1 r1 x2 y2 r2 = 1) := by
  have hr : r2 + r1 = r1 + r2 := F32.add_comm r2 r1
  simp only [check_distance, hr]
  by_cases h : (x2 - x1) * (x2 - x1) + (y2 - y1) * (y2 - y1) < (r1 + r2) * (r1 + r2)
  · refine ⟨by simp [h], by simp [h], ?_, by simp [h]⟩
    intro e
    rw [e] at h
    exact absurd h (F32.lt_irrefl _)
  · exact ⟨by simp [h], by simp [h], fun _ => by simp [h], by simp [h]⟩

/-- C9. Symmetry: exchanging the two particles does not change the result of
`check_distance`, for all binary32 inputs (NaN and infinities included). -/
theorem check_distance_symm (x1 y1 r1 x2 y2 r2 : F32) :
    check_distance x1 y1 r1 x2 y2 r2 = check_distance x2 y2 r2 x1 y1 r1 := by
  have hx : (x1 - x2) * (x1 - x2) = (x2 - x1) * (x2 - x1) := by
    rw [F32.sub_eq_neg_sub x1 x2, F32.neg_mul_neg]
  have hy : (y1 - y2) * (y1 - y2) = (y2 - y1) * (y2 - y1) := by
    rw [F32.sub_eq_neg_sub y1 y2, F32.neg_mul_neg]
  simp only [check_distance, hx, hy, F32.add_comm r1 r2]

/-- C8, as the code has it.  `check_distance` returns 0 when the computed
`d2` equals the computed `s2` and 1 when the computed `d2` is below the
computed `s2`; and whenever the computed `d2` and `s2` carry no rounding error
(they stand for the exact `(x2-x1)^2 + (y2-y1)^2` and `(r1+r2)^2`), exactly
tangent circles give 0 and strictly closer centres give 1. -/
theorem check_distance_tangent_excluded (x1 y1 r1 x2 y2 r2 : F32) :
    ((x2 - x1) * (x2 - x1) + (y2 - y1) * (y2 - y1) = (r2 + r1) * (r2 + r1) →
      check_distance x1 y1 r1 x2 y2 r2 = 0) ∧
    ((x2 - x1) * (x2 - x1) + (y2 - y1) * (y2 - y1) < (r2 + r1) * (r2 + r1) →
      check_distance x1 y1 r1 x2 y2 r2 = 1) ∧
    ∀ X1 Y1 R1 X2 Y2 R2 : ℚ,
      F32.val x1 = some X1 → F32.val y1 = some Y1 → F32.val r1 = some R1 →
      F32.val x2 = some X2 → F32.val y2 = some Y2 → F32.val r2 = some R2 →
      F32.val ((x2 - x1) * (x2 - x1) + (y2 - y1) * (y2 - y1))
        = some ((X2 - X1) ^ 2 + (Y2 - Y1) ^ 2) →
      F32.val ((r2 + r1) * (r2 + r1)) = some ((R1 + R2) ^ 2) →
      ((X2 - X1) ^ 2 + (Y2 - Y1) ^ 2 = (R1 + R2) ^ 2 → check_distance x1 y1 r1 x2 y2 r2 = 0) ∧
      ((X2 - X1) ^ 2 + (Y2 - Y1) ^ 2 < (R1 + R2) ^ 2 → check_distance x1 y1 r1 x2 y2 r2 = 1) := by
  refine ⟨?_, ?_, ?_⟩
  · intro e
    have h : ¬ ((x2 - x1) * (x2 - x1) + (y2 - y1) * (y2 - y1) < (r2 + r1) * (r2 + r1)) := by
      rw [e]; exact F32.lt_irrefl _
    simp only [check_distance, if_neg h]
  · intro h
    simp only [check_distance, if_pos h]
  · intro X1 Y1 R1 X2 Y2 R2 _ _ _ _ _ _ hd hs
    have hlt := F32.lt_iff_val _ _ _ _ hd hs
    constructor
    · intro e
      have h : ¬ ((x2 - x1) * (x2 - x1) + (y2 - y1) * (y2 - y1) < (r2 + r1) * (r2 + r1)) := by
        rw [hlt, e]; exact lt_irrefl _
      simp only [check_distance, if_neg h]
    · intro e
      simp only [check_distance, if_pos (hlt.mpr e)]

/-- C16. NaN treatment: `check_distance` returns 0 as soon as one of its six
arguments is a NaN, and a pair `(i, j)` handed back by a well-formed call of
`detect_collisions` has no NaN among `x[i], y[i], r[i], x[j], y[j], r[j]`. -/
theorem check_distance_nan (x1 y1 r1 x2 y2 r2 : F32) (n : Int) (m : Mem F32) :
    (x1 = F32.nan ∨ y1 = F32.nan ∨ r1 = F32.nan ∨ x2 = F32.nan ∨ y2 = F32.nan ∨ r2 = F32.nan →
      check_distance x1 y1 r1 x2 y2 r2 = 0) ∧
    (WellFormed n m →
      ∃ s ps, detect_collisions n m = some s ∧ emitted s = some ps ∧
        ∀ (i j : Int) (xi yi ri xj yj rj : F32), (i, j) ∈ ps →
          load m.x i = some xi → load m.y i = some yi → load m.r i = some ri →
          load m.x j = some xj → load m.y j = some yj → load m.r j = some rj →
          xi ≠ F32.nan ∧ yi ≠ F32.nan ∧ ri ≠ F32.nan ∧
            xj ≠ F32.nan ∧ yj ≠ F32.nan ∧ rj ≠ F32.nan) := by
  have key : ∀ a1 b1 c1 a2 b2 c2 : F32,
      (a1 = F32.nan ∨ b1 = F32.nan ∨ c1 = F32.nan ∨ a2 = F32.nan ∨ b2 = F32.nan ∨ c2 = F32.nan) →
        check_distance a1 b1 c1 a2 b2 c2 = 0 := by
    intro a1 b1 c1 a2 b2 c2 h
    rcases h with h | h | h | h | h | h <;> subst h <;>
      simp only [check_distance, F32.nan_sub, F32.sub_nan, F32.nan_add, F32.add_nan,
        F32.nan_mul, F32.mul_nan, F32.not_nan_lt, F32.not_lt_nan, if_false]
  refine ⟨key x1 y1 r1 x2 y2 r2, ?_⟩
  intro h
  obtain ⟨s, hs, he⟩ := detect_collisions_emitted n m h
  refine ⟨s, _, hs, he, ?_⟩
  intro i j xi yi ri xj yj rj hmem hxi hyi hri hxj hyj hrj
  have hov := ((mem_collisions n m (i, j)).mp hmem).2
  rw [overlaps_eq m i j xi yi ri xj yj rj hxi hyi hri hxj hyj hrj] at hov
  refine ⟨?_, ?_, ?_, ?_, ?_, ?_⟩ <;> intro e <;> exact hov (key _ _ _ _ _ _ (by simp [e]))

/-- C17. Geometric meaning in exact real arithmetic: for radii `r1 ≥ 0` and
`r2 ≥ 0`, `check_distance` on real numbers returns 1 exactly when the
Euclidean distance of the centres is below `r1 + r2`. -/
theorem check_distance_real (x1 y1 r1 x2 y2 r2 : ℝ) (h1 : 0 ≤ r1) (h2 : 0 ≤ r2) :
    check_distance x1 y1 r1 x2 y2 r2 = 1 ↔
      Real.sqrt ((x2 - x1) ^ 2 + (y2 - y1) ^ 2) < r1 + r2 := by
  have e1 : (x2 - x1) * (x2 - x1) + (y2 - y1) * (y2 - y1)
      = (x2 - x1) ^ 2 + (y2 - y1) ^ 2 := by ring
  have e2 : (r2 + r1) * (r2 + r1) = (r1 + r2) ^ 2 := by ring
  have hd : 0 ≤ (x2 - x1) ^ 2 + (y2 - y1) ^ 2 := by positivity
  have hiff : check_distance x1 y1 r1 x2 y2 r2 = 1 ↔
      (x2 - x1) ^ 2 + (y2 - y1) ^ 2 < (r1 + r2) ^ 2 := by
    simp only [check_distance, e1, e2]
    split <;> simp [*]
  rw [hiff]
  rcases (add_nonneg h1 h2).lt_or_eq with hpos | hzero
  · exact (Real.sqrt_lt' hpos).symm
  · rw [← hzero]
    constructor
    · intro h
      have : (0 : ℝ) ^ 2 = 0 := by norm_num
      rw [this] at h
      exact absurd h (not_lt.mpr hd)
    · intro h
      exact absurd h (not_lt.mpr (Real.sqrt_nonneg _))

/-- C18. Negative radii are not rejected and act through the absolute radius
sum: negating both radii does not change the result of `check_distance`. -/
theorem check_distance_neg_radii (x1 y1 r1 x2 y2 r2 : F32) :
    check_distance x1 y1 r1 x2 y2 r2
      = check_distance x1 y1 (F32.neg r1) x2 y2 (F32.neg r2) := by
  have h : (F32.neg r2 + F32.neg r1) * (F32.neg r2 + F32.neg r1) = (r2 + r1) * (r2 + r1) := by
    rw [F32.neg_add_neg, F32.neg_mul_neg]
  simp only [check_distance, h]

/-- C19. A zero radius sum never collides: when `r1 + r2` is zero,
`check_distance` returns 0 wherever the centres are, and a pair `(i, j)`
handed back by a well-formed call of `detect_collisions` never has
`r[i] + r[j]` zero; in particular `r[i]` and `r[j]` are not both zero. -/
theorem check_distance_zero_radius_sum (x1 y1 r1 x2 y2 r2 : F32) (n : Int) (m : Mem F32) :
    (r1 + r2 = F32.fin 0 → check_distance x1 y1 r1 x2 y2 r2 = 0) ∧
    (WellFormed n m →
      ∃ s ps, detect_collisions n m = some s ∧ emitted s = some ps ∧
        ∀ (i j : Int) (xi yi ri xj yj rj : F32), (i, j) ∈ ps →
          load m.x i = some xi → load m.y i = some yi → load m.r i = some ri →
          load m.x j = some xj → load m.y j = some yj → load m.r j = some rj →
          ri + rj ≠ F32.fin 0 ∧ ¬ (ri = F32.fin 0 ∧ rj = F32.fin 0)) := by
  have key : ∀ a1 b1 c1 a2 b2 c2 : F32, c1 + c2 = F32.fin 0 →
      check_distance a1 b1 c1 a2 b2 c2 = 0 := by
    intro a1 b1 c1 a2 b2 c2 h
    have hr : c2 + c1 = F32.fin 0 := by rw [F32.add_comm]; exact h
    have hd : ¬ ((a2 - a1) * (a2 - a1) + (b2 - b1) * (b2 - b1) < F32.fin 0) :=
      F32.not_lt_zero_of_notNegative _
        (F32.notNegative_add _ _ (F32.notNegative_mul_self _) (F32.notNegative_mul_self _))
    simp only [check_distance, hr, F32.zero_mul_zero, if_neg hd]
  have zz : F32.fin 0 + F32.fin 0 = F32.fin 0 := by
    show F32.add (F32.fin 0) (F32.fin 0) = F32.fin 0
    simp only [F32.add, Int.add_zero, F32.rnd_zero]
  refine ⟨key x1 y1 r1 x2 y2 r2, ?_⟩
  intro h
  obtain ⟨s, hs, he⟩ := detect_collisions_emitted n m h
  refine ⟨s, _, hs, he, ?_⟩
  intro i j xi yi ri xj yj rj hmem hxi hyi hri hxj hyj hrj
  have hov := ((mem_collisions n m (i, j)).mp hmem).2
  rw [overlaps_eq m i j xi yi ri xj yj rj hxi hyi hri hxj hyj hrj] at hov
  have hne : ri + rj ≠ F32.fin 0 := fun e => hov (key _ _ _ _ _ _ e)
  refine ⟨hne, ?_⟩
  rintro ⟨e1, e2⟩
  exact hne (by rw [e1, e2, zz])

/-! ## The theorems at concrete inputs -/

set_option maxRecDepth 10000 in
/-- C1 on `P0 = (0,0,r=1)`, `P1 = (1,0,r=1)`, `P2 = (10,10,r=1)`: the call is
well-formed, hands back exactly the pair `(0,1)`, and sets the count to 1. -/
theorem detect_collisions_sound_complete_witness :
    WellFormed 3 threeParticles ∧
    (detect_collisions 3 threeParticles).bind emitted = some [(0, 1)] ∧
    (detect_collisions 3 threeParticles).bind (fun s => load s.mem.nPairs 0) = some 1 ∧
    ∃ s ps, detect_collisions 3 threeParticles = some s ∧ emitted s = some ps ∧
      ∀ (i j : Int) (xi yi ri xj yj rj : F32), 0 ≤ i → i < j → j < 3 →
        load threeParticles.x i = some xi → load threeParticles.y i = some yi →
        load threeParticles.r i = some ri →
        load threeParticles.x j = some xj → load threeParticles.y j = some yj →
        load threeParticles.r j = some rj →
        ((i, j) ∈ ps ↔ check_distance xi yi ri xj yj rj ≠ 0) :=
  ⟨by decide, by decide, by decide,
    detect_collisions_sound_complete 3 threeParticles (by decide)⟩

set_option maxRecDepth 10000 in
/-- C3 on four mutually overlapping particles. -/
theorem detect_collisions_order_witness :
    WellFormed 4 fourOverlapping ∧
    ∃ s ps, detect_collisions 4 fourOverlapping = some s ∧ emitted s = some ps ∧
      ps.Chain' lexLt :=
  ⟨by decide, detect_collisions_order 4 fourOverlapping (by decide)⟩

set_option maxRecDepth 10000 in
/-- C4 on the three particles: the count is 1, `pairs[0] = 0`, `pairs[1] = 1`,
and the rest of the buffer keeps its old content. -/
theorem detect_collisions_layout_witness :
    WellFormed 3 threeParticles ∧
    collisions 3 threeParticles = [(0, 1)] ∧
    (detect_collisions 3 threeParticles).map (fun s => (s.mem.nPairs, s.mem.pairs))
      = some ([1], [0, 1, 9, 9, 9, 9]) ∧
    ∃ s, detect_collisions 3 threeParticles = some s ∧
      load s.mem.nPairs 0 = some ((collisions 3 threeParticles).length : Int) ∧
      ∀ (k : Nat) (p : Int × Int), (collisions 3 threeParticles)[k]? = some p →
        load s.mem.pairs (2 * (k : Int)) = some p.1 ∧
          load s.mem.pairs (2 * (k : Int) + 1) = some p.2 :=
  ⟨by decide, by decide, by decide, detect_collisions_layout 3 threeParticles (by decide)⟩

set_option maxRecDepth 10000 in
/-- C5 on four mutually overlapping particles. -/
theorem detect_collisions_index_range_witness :
    WellFormed 4 fourOverlapping ∧
    ∃ s ps, detect_collisions 4 fourOverlapping = some s ∧ emitted s = some ps ∧
      ∀ p ∈ ps, 0 ≤ p.1 ∧ p.1 < p.2 ∧ p.2 < 4 :=
  ⟨by decide, detect_collisions_index_range 4 fourOverlapping (by decide)⟩

set_option maxRecDepth 10000 in
/-- C6 on four mutually overlapping particles. -/
theorem detect_collisions_no_duplicates_witness :
    WellFormed 4 fourOverlapping ∧
    ∃ s ps, detect_collisions 4 fourOverlapping = some s ∧ emitted s = some ps ∧ ps.Nodup ∧
      ∀ i j : Int, (i, j) ∈ ps → (j, i) ∉ ps :=
  ⟨by decide, detect_collisions_no_duplicates 4 fourOverlapping (by decide)⟩

/-- C7 on one particle (`n = 1`) and on the same memory with `n = 0`: the old
count 5 is replaced by 0 and `pairs` keeps its two old values. -/
theorem detect_collisions_degenerate_witness :
    (∃ s, detect_collisions 1 oneParticle = some s ∧ load s.mem.nPairs 0 = some 0 ∧
      s.calls = 0 ∧ s.stores = 0 ∧ s.mem.pairs = [8, 8] ∧ emitted s = some []) ∧
    (∃ s, detect_collisions 0 oneParticle = some s ∧ load s.mem.nPairs 0 = some 0 ∧
      s.calls = 0 ∧ s.stores = 0 ∧ s.mem.pairs = [8, 8] ∧ emitted s = some []) :=
  ⟨detect_collisions_degenerate 1 oneParticle (Or.inr rfl) (by decide),
    detect_collisions_degenerate 0 oneParticle (Or.inl rfl) (by decide)⟩

set_option maxRecDepth 10000 in
/-- C10 on `n = 4`, all particles at `(0,0)` with `r = 5`: the result is
`[(0,1),(0,2),(0,3),(1,2),(1,3),(2,3)]` and the count is 6. -/
theorem detect_collisions_all_overlapping_witness :
    WellFormed 4 fourOverlapping ∧
    upperTriangle 4 = [(0, 1), (0, 2), (0, 3), (1, 2), (1, 3), (2, 3)] ∧
    ∃ s, detect_collisions 4 fourOverlapping = some s ∧
      emitted s = some (upperTriangle 4) ∧ load s.mem.nPairs 0 = some (4 * (4 - 1) / 2) := by
  refine ⟨by decide, by decide,
    detect_collisions_all_overlapping 4 fourOverlapping (by decide) (by decide) ?_⟩
  intro i j xi yi ri xj yj rj h0 hij hjn hxi hyi hri hxj hyj hrj
  have hi : i = 0 ∨ i = 1 ∨ i = 2 := by omega
  have hj : j = 1 ∨ j = 2 ∨ j = 3 := by omega
  rcases hi with rfl | rfl | rfl <;> rcases hj with rfl | rfl | rfl <;>
    simp [load, fourOverlapping] at hxi hyi hri hxj hyj hrj <;>
    (try omega) <;>
    (subst hxi hyi hri hxj hyj hrj; decide)

set_option maxRecDepth 10000 in
/-- C8 fails on the code in both of these calls, whose centres are strictly
closer than `r1 + r2 > 0` and whose result is 0.
* `A = (0, 0, r = 4000)`, `B = (1892, 3652, r = 113)`: the squared distance is
  `16916768`, one less than `4113^2 = 16916769`; binary32 rounds `4113 * 4113`
  to `16916768`, and `16916768 < 16916768` is false.
* Two particles at the same place with `r = 2^(-100)`: `2^(-99) * 2^(-99)`
  underflows to `0`, and `0 < 0` is false. -/
theorem check_distance_closer_counterexample :
    (F32.val (F32.ofBits 0x457A0000) = some 4000 ∧ F32.val (F32.ofBits 0x44EC8000) = some 1892 ∧
      F32.val (F32.ofBits 0x45644000) = some 3652 ∧ F32.val (F32.ofBits 0x42E20000) = some 113 ∧
      F32.val (F32.ofBits 0) = some 0 ∧
      (0 : ℚ) < 4000 + 113 ∧ ((1892 : ℚ) - 0) ^ 2 + (3652 - 0) ^ 2 < (4000 + 113) ^ 2 ∧
      check_distance (F32.ofBits 0) (F32.ofBits 0) (F32.ofBits 0x457A0000)
        (F32.ofBits 0x44EC8000) (F32.ofBits 0x45644000) (F32.ofBits 0x42E20000) = 0) ∧
    (F32.val (F32.ofBits 0x0D800000) = some (1 / 2 ^ 100) ∧
      (0 : ℚ) < 1 / 2 ^ 100 + 1 / 2 ^ 100 ∧
      ((0 : ℚ) - 0) ^ 2 + (0 - 0) ^ 2 < (1 / 2 ^ 100 + 1 / 2 ^ 100) ^ 2 ∧
      check_distance (F32.ofBits 0) (F32.ofBits 0) (F32.ofBits 0x0D800000)
        (F32.ofBits 0) (F32.ofBits 0) (F32.ofBits 0x0D800000) = 0) := by
  have v0 : F32.ofBits 0 = F32.fin 0 := by decide
  have v1 : F32.ofBits 0x457A0000 = F32.fin (4000 * 2 ^ 149) := by decide
  have v2 : F32.ofBits 0x44EC8000 = F32.fin (1892 * 2 ^ 149) := by decide
  have v3 : F32.ofBits 0x45644000 = F32.fin (3652 * 2 ^ 149) := by decide
  have v4 : F32.ofBits 0x42E20000 = F32.fin (113 * 2 ^ 149) := by decide
  have v5 : F32.ofBits 0x0D800000 = F32.fin (2 ^ 49) := by decide
  refine ⟨⟨?_, ?_, ?_, ?_, ?_, by norm_num, by norm_num, by decide⟩,
    ⟨?_, by positivity, by norm_num, by decide⟩⟩
  · rw [v1]; simp only [F32.val, Option.some.injEq]; push_cast; norm_num
  · rw [v2]; simp only [F32.val, Option.some.injEq]; push_cast; norm_num
  · rw [v3]; simp only [F32.val, Option.some.injEq]; push_cast; norm_num
  · rw [v4]; simp only [F32.val, Option.some.injEq]; push_cast; norm_num
  · rw [v0]; simp [F32.val]
  · rw [v5]; simp only [F32.val, Option.some.injEq]; push_cast; norm_num

set_option maxRecDepth 10000 in
/-- C8 as amended, on `A = (0,0,r=1)` with `B = (2,0,r=1)` (tangent, computed
without rounding: 0), with `B = (1.5,0,r=1)` (closer, computed without
rounding: 1) and with `B = (1.999f,0,r=1)` (computed `d2` below `s2`: 1). -/
theorem check_distance_tangent_excluded_witness :
    check_distance (F32.ofBits 0) (F32.ofBits 0) (F32.ofBits 0x3F800000)
      (F32.ofBits 0x40000000) (F32.ofBits 0) (F32.ofBits 0x3F800000) = 0 ∧
    check_distance (F32.ofBits 0) (F32.ofBits 0) (F32.ofBits 0x3F800000)
      (F32.ofBits 0x3FC00000) (F32.ofBits 0) (F32.ofBits 0x3F800000) = 1 ∧
    check_distance (F32.ofBits 0) (F32.ofBits 0) (F32.ofBits 0x3F800000)
      (F32.ofBits 0x3FFFDF3B) (F32.ofBits 0) (F32.ofBits 0x3F800000) = 1 := by
  have v0 : F32.val (F32.ofBits 0) = some 0 := by
    rw [show F32.ofBits 0 = F32.fin 0 by decide]; simp [F32.val]
  have v1 : F32.val (F32.ofBits 0x3F800000) = some 1 := by
    rw [show F32.ofBits 0x3F800000 = F32.fin (2 ^ 149) by decide]
    simp only [F32.val, Option.some.injEq]; push_cast; norm_num
  have v2 : F32.val (F32.ofBits 0x40000000) = some 2 := by
    rw [show F32.ofBits 0x40000000 = F32.fin (2 * 2 ^ 149) by decide]
    simp only [F32.val, Option.some.injEq]; push_cast; norm_num
  have v3 : F32.val (F32.ofBits 0x3FC00000) = some (3 / 2) := by
    rw [show F32.ofBits 0x3FC00000 = F32.fin (3 * 2 ^ 148) by decide]
    simp only [F32.val, Option.some.injEq]; push_cast; norm_num
  refine ⟨?_, ?_, ?_⟩
  · refine ((check_distance_tangent_excluded (F32.ofBits 0) (F32.ofBits 0)
      (F32.ofBits 0x3F800000) (F32.ofBits 0x40000000) (F32.ofBits 0)
      (F32.ofBits 0x3F800000)).2.2 0 0 1 2 0 1 v0 v0 v1 v2 v0 v1 ?_ ?_).1 (by norm_num)
    · rw [show (F32.ofBits 0x40000000 - F32.ofBits 0) * (F32.ofBits 0x40000000 - F32.ofBits 0)
        + (F32.ofBits 0 - F32.ofBits 0) * (F32.ofBits 0 - F32.ofBits 0)
        = F32.fin (4 * 2 ^ 149) by decide]
      simp only [F32.val, Option.some.injEq]; push_cast; norm_num
    · rw [show (F32.ofBits 0x3F800000 + F32.ofBits 0x3F800000)
        * (F32.ofBits 0x3F800000 + F32.ofBits 0x3F800000) = F32.fin (4 * 2 ^ 149) by decide]
      simp only [F32.val, Option.some.injEq]; push_cast; norm_num
  · refine ((check_distance_tangent_excluded (F32.ofBits 0) (F32.ofBits 0)
      (F32.ofBits 0x3F800000) (F32.ofBits 0x3FC00000) (F32.ofBits 0)
      (F32.ofBits 0x3F800000)).2.2 0 0 1 (3 / 2) 0 1 v0 v0 v1 v3 v0 v1 ?_ ?_).2 (by norm_num)
    · rw [show (F32.ofBits 0x3FC00000 - F32.ofBits 0) * (F32.ofBits 0x3FC00000 - F32.ofBits 0)
        + (F32.ofBits 0 - F32.ofBits 0) * (F32.ofBits 0 - F32.ofBits 0)
        = F32.fin (9 * 2 ^ 147) by decide]
      simp only [F32.val, Option.some.injEq]; push_cast; norm_num
    · rw [show (F32.ofBits 0x3F800000 + F32.ofBits 0x3F800000)
        * (F32.ofBits 0x3F800000 + F32.ofBits 0x3F800000) = F32.fin (4 * 2 ^ 149) by decide]
      simp only [F32.val, Option.some.injEq]; push_cast; norm_num
  · exact (check_distance_tangent_excluded (F32.ofBits 0) (F32.ofBits 0)
      (F32.ofBits 0x3F800000) (F32.ofBits 0x3FFFDF3B) (F32.ofBits 0)
      (F32.ofBits 0x3F800000)).2.1 (by decide)

set_option maxRecDepth 10000 in
/-- Rounding also acts in the other direction: `A = (0, 0, r = 10000)` and
`B = (12291, 16388, r = 10485)` are exactly tangent (`12291^2 + 16388^2 =
20485^2`), and `check_distance` returns 1: the squares are rounded one by one
and the computed `d2 = 419635200` is below the computed `s2 = 419635232`. -/
theorem check_distance_tangent_rounding :
    F32.val (F32.ofBits 0x461C4000) = some 10000 ∧ F32.val (F32.ofBits 0x46400C00) = some 12291 ∧
    F32.val (F32.ofBits 0x46800800) = some 16388 ∧ F32.val (F32.ofBits 0x4623D400) = some 10485 ∧
    ((12291 : ℚ) - 0) ^ 2 + (16388 - 0) ^ 2 = (10000 + 10485) ^ 2 ∧
    check_distance (F32.ofBits 0) (F32.ofBits 0) (F32.ofBits 0x461C4000)
      (F32.ofBits 0x46400C00) (F32.ofBits 0x46800800) (F32.ofBits 0x4623D400) = 1 := by
  have v1 : F32.ofBits 0x461C4000 = F32.fin (10000 * 2 ^ 149) := by decide
  have v2 : F32.ofBits 0x46400C00 = F32.fin (12291 * 2 ^ 149) := by decide
  have v3 : F32.ofBits 0x46800800 = F32.fin (16388 * 2 ^ 149) := by decide
  have v4 : F32.ofBits 0x4623D400 = F32.fin (10485 * 2 ^ 149) := by decide
  refine ⟨?_, ?_, ?_, ?_, by norm_num, by decide⟩
  · rw [v1]; simp only [F32.val, Option.some.injEq]; push_cast; norm_num
  · rw [v2]; simp only [F32.val, Option.some.injEq]; push_cast; norm_num
  · rw [v3]; simp only [F32.val, Option.some.injEq]; push_cast; norm_num
  · rw [v4]; simp only [F32.val, Option.some.injEq]; push_cast; norm_num

set_option maxRecDepth 10000 in
/-- C11 on four mutually overlapping particles and a buffer of `4 * 3` cells:
the worst case, in which the count is 6 and `k` ends at 12. -/
theorem detect_collisions_in_bounds_witness :
    (detect_collisions 4 fourOverlapping).map (fun s => (s.mem.nPairs, s.k, s.stores))
      = some ([6], 12, 12) ∧
    ∃ s c, detect_collisions 4 fourOverlapping = some s ∧ load s.mem.nPairs 0 = some c ∧
      0 ≤ c ∧ c ≤ 4 * (4 - 1) / 2 ∧ s.k = 2 * c ∧ (s.stores : Int) = 2 * c ∧
      s.k ≤ 4 * (4 - 1) ∧
      ∀ k : Nat, (4 : Int) * (4 - 1) ≤ k → s.mem.pairs[k]? = fourOverlapping.pairs[k]? :=
  ⟨by decide, detect_collisions_in_bounds 4 fourOverlapping (by decide) (by decide) (by decide)
    (by decide) (by decide) (by decide)⟩

set_option maxRecDepth 10000 in
/-- C12 on the three particles: the call returns and `x`, `y`, `r` are as before. -/
theorem detect_collisions_pure_witness :
    ∃ s, detect_collisions 3 threeParticles = some s ∧
      s.mem.x = threeParticles.x ∧ s.mem.y = threeParticles.y ∧ s.mem.r = threeParticles.r ∧
      s.mem.nPairs.drop 1 = threeParticles.nPairs.drop 1 ∧
      s.mem.nPairs.length = threeParticles.nPairs.length ∧
      s.mem.pairs.length = threeParticles.pairs.length := by
  obtain ⟨s, hs⟩ := (detect_collisions_pure 3 threeParticles).1 (by decide)
  exact ⟨s, hs, (detect_collisions_pure 3 threeParticles).2 s hs⟩

set_option maxRecDepth 10000 in
/-- C13 on the three particles with two different pairs of output buffers:
`([7], [9,9,9,9,9,9])` becomes `([1], [0,1,9,9,9,9])` and
`([-4,3], [6,5,4,3,2,1,0,-1])` becomes `([1,3], [0,1,4,3,2,1,0,-1])`. -/
theorem detect_collisions_deterministic_witness :
    (detect_collisions 3 threeParticles).map (fun s => (s.mem.nPairs, s.mem.pairs))
      = some ([1], [0, 1, 9, 9, 9, 9]) ∧
    (detect_collisions 3 threeParticlesAgain).map (fun s => (s.mem.nPairs, s.mem.pairs))
      = some ([1, 3], [0, 1, 4, 3, 2, 1, 0, -1]) ∧
    ∃ s1 s2 c, detect_collisions 3 threeParticles = some s1 ∧
      detect_collisions 3 threeParticlesAgain = some s2 ∧
      load s1.mem.nPairs 0 = some c ∧ load s2.mem.nPairs 0 = some c ∧
      s1.mem.pairs.take (2 * c).toNat = s2.mem.pairs.take (2 * c).toNat ∧
      emitted s1 = emitted s2 :=
  ⟨by decide, by decide,
    detect_collisions_deterministic 3 threeParticles threeParticlesAgain rfl rfl rfl
      (by decide) (by decide)⟩

set_option maxRecDepth 10000 in
/-- C14 on the three particles, of which one pair collides: 3 calls; and on
the four mutually overlapping ones: 6 calls. -/
theorem detect_collisions_call_count_witness :
    (∃ s, detect_collisions 3 threeParticles = some s ∧ (s.calls : Int) = 3 * (3 - 1) / 2) ∧
    (∃ s, detect_collisions 4 fourOverlapping = some s ∧ (s.calls : Int) = 4 * (4 - 1) / 2) :=
  ⟨detect_collisions_call_count 3 threeParticles (by decide) (by decide),
    detect_collisions_call_count 4 fourOverlapping (by decide) (by decide)⟩

set_option maxRecDepth 10000 in
/-- C15 fails on the code.  With `n = -1` and with `n = -1000`, on empty `x`,
`y`, `r` and `pairs`, where any access to one of them would be outside the
array, the call returns: it has stored `0` into `nPairs[0]` and touched
nothing else.  No negative `n` makes a call with an `nPairs` slot leave an array. -/
theorem detect_collisions_negative_counterexample :
    (detect_collisions (-1) noParticles).map (fun s => (s.mem.nPairs, s.mem.pairs, s.calls, s.stores))
      = some ([0], [], 0, 0) ∧
    (detect_collisions (-1000) noParticles).map
        (fun s => (s.mem.nPairs, s.mem.pairs, s.calls, s.stores))
      = some ([0], [], 0, 0) ∧
    ¬ ∃ (n : Int) (m : Mem F32), n < 0 ∧ 1 ≤ m.nPairs.length ∧ detect_collisions n m = none := by
  refine ⟨by decide, by decide, ?_⟩
  rintro ⟨n, m, hn, hnp, h⟩
  rw [detect_collisions_of_le_one n m (by omega) hnp] at h
  exact Option.noConfusion h

/-- C15 as amended, on `n = -3` and the three particles. -/
theorem detect_collisions_negative_witness :
    ∃ s, detect_collisions (-3) threeParticles = some s ∧ s.calls = 0 ∧ s.stores = 0 ∧
      s.mem.x = threeParticles.x ∧ s.mem.y = threeParticles.y ∧ s.mem.r = threeParticles.r ∧
      s.mem.pairs = threeParticles.pairs ∧ s.mem.nPairs = threeParticles.nPairs.set 0 0 :=
  detect_collisions_negative (-3) threeParticles (by decide) (by decide)

set_option maxRecDepth 10000 in
/-- C16 on three overlapping particles of which the middle one has a NaN as
`x`: only `(0, 2)` is handed back. -/
theorem check_distance_nan_witness :
    check_distance (F32.ofBits 0x7FC00000) (F32.ofBits 0) (F32.ofBits 0x3F800000)
      (F32.ofBits 0) (F32.ofBits 0) (F32.ofBits 0x3F800000) = 0 ∧
    (detect_collisions 3 nanParticles).bind emitted = some [(0, 2)] ∧
    ∃ s ps, detect_collisions 3 nanParticles = some s ∧ emitted s = some ps ∧
      ∀ (i j : Int) (xi yi ri xj yj rj : F32), (i, j) ∈ ps →
        load nanParticles.x i = some xi → load nanParticles.y i = some yi →
        load nanParticles.r i = some ri →
        load nanParticles.x j = some xj → load nanParticles.y j = some yj →
        load nanParticles.r j = some rj →
        xi ≠ F32.nan ∧ yi ≠ F32.nan ∧ ri ≠ F32.nan ∧
          xj ≠ F32.nan ∧ yj ≠ F32.nan ∧ rj ≠ F32.nan :=
  ⟨(check_distance_nan (F32.ofBits 0x7FC00000) (F32.ofBits 0) (F32.ofBits 0x3F800000)
      (F32.ofBits 0) (F32.ofBits 0) (F32.ofBits 0x3F800000) 3 nanParticles).1
      (Or.inl (by decide)),
    by decide,
    (check_distance_nan (F32.ofBits 0) (F32.ofBits 0) (F32.ofBits 0) (F32.ofBits 0)
      (F32.ofBits 0) (F32.ofBits 0) 3 nanParticles).2 (by decide)⟩

/-- C17 on `A = (0, 0, r = 1)` with `B = (1, 0, r = 1)` (distance 1, below 2:
the result is 1) and with `B = (2, 0, r = 1)` (distance 2: the result is not 1). -/
theorem check_distance_real_witness :
    check_distance (0 : ℝ) 0 1 1 0 1 = 1 ∧ ¬ (check_distance (0 : ℝ) 0 1 2 0 1 = 1) := by
  constructor
  · rw [check_distance_real 0 0 1 1 0 1 (by norm_num) (by norm_num)]
    have h : Real.sqrt ((1 - 0) ^ 2 + (0 - 0) ^ 2) = 1 := by norm_num
    rw [h]; norm_num
  · rw [check_distance_real 0 0 1 2 0 1 (by norm_num) (by norm_num)]
    have h : Real.sqrt ((2 - 0) ^ 2 + (0 - 0) ^ 2) = 2 := by
      rw [show ((2 : ℝ) - 0) ^ 2 + (0 - 0) ^ 2 = 2 ^ 2 by norm_num]
      exact Real.sqrt_sq (by norm_num)
    rw [h]; norm_num

set_option maxRecDepth 10000 in
/-- C18 on two particles at the same place with `r = -1`: they collide, as
with `r = 1`. -/
theorem check_distance_neg_radii_witness :
    F32.neg (F32.ofBits 0x3F800000) = F32.ofBits 0xBF800000 ∧
    check_distance (F32.ofBits 0) (F32.ofBits 0) (F32.ofBits 0x3F800000)
      (F32.ofBits 0) (F32.ofBits 0) (F32.ofBits 0x3F800000) = 1 ∧
    check_distance (F32.ofBits 0) (F32.ofBits 0) (F32.ofBits 0xBF800000)
      (F32.ofBits 0) (F32.ofBits 0) (F32.ofBits 0xBF800000) = 1 := by
  have e : F32.neg (F32.ofBits 0x3F800000) = F32.ofBits 0xBF800000 := by decide
  have h := check_distance_neg_radii (F32.ofBits 0) (F32.ofBits 0) (F32.ofBits 0x3F800000)
    (F32.ofBits 0) (F32.ofBits 0) (F32.ofBits 0x3F800000)
  rw [e] at h
  exact ⟨e, by decide, by rw [← h]; decide⟩

set_option maxRecDepth 10000 in
/-- C19 on three particles at the same place, two of them with `r = 0`: the
two points do not collide with each other, and each collides with the third. -/
theorem check_distance_zero_radius_sum_witness :
    check_distance (F32.ofBits 0) (F32.ofBits 0) (F32.ofBits 0)
      (F32.ofBits 0) (F32.ofBits 0) (F32.ofBits 0) = 0 ∧
    (detect_collisions 3 pointParticles).bind emitted = some [(0, 2), (1, 2)] ∧
    ∃ s ps, detect_collisions 3 pointParticles = some s ∧ emitted s = some ps ∧
      ∀ (i j : Int) (xi yi ri xj yj rj : F32), (i, j) ∈ ps →
        load pointParticles.x i = some xi → load pointParticles.y i = some yi →
        load pointParticles.r i = some ri →
        load pointParticles.x j = some xj → load pointParticles.y j = some yj →
        load pointParticles.r j = some rj →
        ri + rj ≠ F32.fin 0 ∧ ¬ (ri = F32.fin 0 ∧ rj = F32.fin 0) :=
  ⟨(check_distance_zero_radius_sum (F32.ofBits 0) (F32.ofBits 0) (F32.ofBits 0)
      (F32.ofBits 0) (F32.ofBits 0) (F32.ofBits 0) 3 pointParticles).1 (by decide),
    by decide,
    (check_distance_zero_radius_sum (F32.ofBits 0) (F32.ofBits 0) (F32.ofBits 0)
      (F32.ofBits 0) (F32.ofBits 0) (F32.ofBits 0) 3 pointParticles).2 (by decide)⟩

set_option maxRecDepth 10000 in
/-- C20 on the three particles: the count is 1 and the four cells behind the
one pair still hold the old value 9. -/
theorem detect_collisions_tail_witness :
    (detect_collisions 3 threeParticles).map (fun s => (s.mem.nPairs, s.mem.pairs))
      = some ([1], [0, 1, 9, 9, 9, 9]) ∧
    ∃ s c, detect_collisions 3 threeParticles = some s ∧ load s.mem.nPairs 0 = some c ∧
      s.mem.pairs.length = threeParticles.pairs.length ∧
      ∀ k : Nat, 2 * c ≤ (k : Int) → s.mem.pairs[k]? = threeParticles.pairs[k]? :=
  ⟨by decide, detect_collisions_tail 3 threeParticles (by decide)⟩

end DistCheck
